import Mathlib

/-!
# winmove: monitor registry and placement decision

A shallow embedding of `main.go`.  Go `int` values are modelled as unbounded
integers: every quantity that enters the arithmetic comes from a 16-bit field of
an X11 reply, so no 64-bit operation can wrap.  Go's `/` on `int` truncates
towards zero and is modelled by `Int.tdiv`.  A slice index that is out of range
(a run-time panic in Go) is modelled by `none`.
-/

namespace Winmove

/-! ## Data model -/

/-- The `Monitor` struct of `main.go`. -/
structure Monitor where
  width : Int
  height : Int
  offsetX : Int
  offsetY : Int
deriving DecidableEq, Repr

/-- The validated command-line argument `os.Args[1]`: `main` returns early unless
it is `"left"` or `"right"`. -/
inductive Direction where
  | left
  | right
deriving DecidableEq, Repr

/-- The four integers `main` hands to `moveResizeWindow(X, win, x, y, width, height)`. -/
structure Rect where
  x : Int
  y : Int
  width : Int
  height : Int
deriving DecidableEq, Repr

/-- The pair of mutable locals `currentIndex`, `moveToOther` of `main`. -/
structure Cursor where
  currentIndex : Int
  moveToOther : Bool
deriving DecidableEq, Repr

/-! ## Placement decision (`main`, lines 199-252) -/

/-- Slice indexing `monitors[i]` with a Go `int` index; `none` is the
index-out-of-range panic. -/
def index (monitors : List Monitor) (i : Int) : Option Monitor :=
  if 0 ≤ i then monitors[i.toNat]? else none

/-- The test of the `for i, m := range monitors` loop body (line 202). -/
def contains (m : Monitor) (winCenterX : Int) : Bool :=
  decide (winCenterX ≥ m.offsetX) && decide (winCenterX < m.offsetX + m.width)

/-- The `range` loop of lines 201-206, started at loop counter `i`: the counter of
the first monitor whose span holds `winCenterX`, or `none` when the loop runs to
its end without reaching `break`. -/
def scan : List Monitor → Int → Int → Option Int
  | [], _, _ => none
  | m :: rest, winCenterX, i =>
    if contains m winCenterX then some i else scan rest winCenterX (i + 1)

/-- Lines 200-206: `currentIndex` starts at 0 and is overwritten by the loop only
when a monitor holds the window centre. -/
def findCurrent (monitors : List Monitor) (winCenterX : Int) : Int :=
  (scan monitors winCenterX 0).getD 0

/-- Line 199. -/
def winCenterX (x width : Int) : Int :=
  x + width.tdiv 2

/-- Lines 208-217: the edge test against `m = monitors[currentIndex]`, giving the
index and flag after the optional hop. -/
def hop (m : Monitor) (currentIndex x width : Int) (direction : Direction) : Cursor :=
  let windowRight := x + width
  if direction = Direction.left ∧ x ≤ m.offsetX + 5 then
    ⟨currentIndex - 1, true⟩
  else if direction = Direction.right ∧ windowRight ≥ m.offsetX + m.width - 5 then
    ⟨currentIndex + 1, true⟩
  else
    ⟨currentIndex, false⟩

/-- Lines 219-226: the two clamps, in source order, for a slice of length `len`. -/
def clamp (len : Int) (c : Cursor) : Cursor :=
  let c1 : Cursor := if c.currentIndex < 0 then ⟨0, false⟩ else c
  if c1.currentIndex ≥ len then ⟨len - 1, false⟩ else c1

/-- Lines 228-245 and the argument list of line 252: the rectangle on the target
monitor `mon`. -/
def target (mon : Monitor) (moveToOther : Bool) (direction : Direction) : Rect :=
  let halfWidth := mon.width.tdiv 2
  let screenHeight := mon.height
  let newX :=
    if moveToOther then
      if direction = Direction.left then mon.offsetX + mon.width - halfWidth
      else mon.offsetX
    else
      if direction = Direction.left then mon.offsetX
      else mon.offsetX + mon.width - halfWidth
  ⟨newX, 0, halfWidth, screenHeight⟩

/-- The cursor after the hop and the clamps (lines 199-226); `none` when
`monitors[currentIndex]` of the edge test is out of range. -/
def hopAndClamp (monitors : List Monitor) (x width : Int) (direction : Direction) :
    Option (Cursor × Cursor) :=
  let currentIndex := findCurrent monitors (winCenterX x width)
  match index monitors currentIndex with
  | none => none
  | some m =>
    let hopped := hop m currentIndex x width direction
    some (hopped, clamp monitors.length hopped)

/-- Lines 195-252 of `main` from the point where the window geometry `x, width`
and the monitor slice are known: the arguments of the `moveResizeWindow` call.
`none` stands for a run that never reaches the call: the `log.Fatalf` on an empty
slice, or an index panic. -/
def main (monitors : List Monitor) (x width : Int) (direction : Direction) :
    Option Rect :=
  if monitors.length = 0 then none
  else
    match hopAndClamp monitors x width direction with
    | none => none
    | some (_, c) =>
      match index monitors c.currentIndex with
      | none => none
      | some mon => some (target mon c.moveToOther direction)

/-- The two-monitor layout of the spec scenarios. -/
def dual : List Monitor :=
  [⟨1920, 1080, 0, 0⟩, ⟨1920, 1080, 1920, 0⟩]

/-! ## Monitor registry (`getMonitors`, lines 50-85) -/

/-- The fields of `randr.GetOutputInfoReply` that `getMonitors` reads. -/
structure OutputInfo where
  connection : Nat
  crtcs : List Nat
  crtc : Nat
deriving DecidableEq, Repr

/-- The fields of `randr.GetCrtcInfoReply` that `getMonitors` reads: `X`, `Y` are
`int16`, `Width`, `Height` are `uint16`. -/
structure CrtcInfo where
  x : Int
  y : Int
  width : Nat
  height : Nat
deriving DecidableEq, Repr

/-- The replies of the X server to the four requests of `getMonitors`; `none`
(`false` for `randr.Init`) is a reply with `err != nil`. -/
structure XServer where
  randrInit : Bool
  screenResources : Option (List Nat)
  outputInfo : Nat → Option OutputInfo
  crtcInfo : Nat → Option CrtcInfo

/-- The constant `randr.ConnectionConnected` of the RandR binding. -/
def ConnectionConnected : Nat := 0

/-- The `for _, output := range resources.Outputs` loop of lines 61-78, with the
slice `monitors` built so far. -/
def collect (srv : XServer) : List Nat → List Monitor → List Monitor
  | [], monitors => monitors
  | output :: rest, monitors =>
    match srv.outputInfo output with
    | none => collect srv rest monitors
    | some outInfo =>
      if outInfo.connection ≠ ConnectionConnected ∨ outInfo.crtcs.length = 0 then
        collect srv rest monitors
      else
        match srv.crtcInfo outInfo.crtc with
        | none => collect srv rest monitors
        | some crtcInfo =>
          if crtcInfo.width = 0 ∨ crtcInfo.height = 0 then collect srv rest monitors
          else
            collect srv rest
              (monitors ++ [⟨(crtcInfo.width : Int), (crtcInfo.height : Int), crtcInfo.x,
                crtcInfo.y⟩])

/-- The `less` closure of lines 80-82, on the two slice elements it reads. -/
def byOffsetX (a b : Monitor) : Bool :=
  decide (a.offsetX < b.offsetX)

/-- The registry in the words of the specification: the monitor of an output that
is connected, has at least one CRTC, and whose CRTC query succeeds and reports
non-zero width and height; `none` for every other output. -/
def survivor (srv : XServer) (output : Nat) : Option Monitor :=
  match srv.outputInfo output with
  | none => none
  | some outInfo =>
    match srv.crtcInfo outInfo.crtc with
    | none => none
    | some crtcInfo =>
      if outInfo.connection = ConnectionConnected ∧ 1 ≤ outInfo.crtcs.length ∧
          crtcInfo.width ≠ 0 ∧ crtcInfo.height ≠ 0 then
        some ⟨(crtcInfo.width : Int), (crtcInfo.height : Int), crtcInfo.x, crtcInfo.y⟩
      else none

/-- The documented contract of `sort.Slice(x, less)`: afterwards `x` holds the same
elements, and no element is `less` than one before it.  Stability is not part of
the contract. -/
def SortContract (sortSlice : List Monitor → (Monitor → Monitor → Bool) → List Monitor)
    (less : Monitor → Monitor → Bool) : Prop :=
  ∀ data, (sortSlice data less).Perm data ∧
    (sortSlice data less).Pairwise (fun a b => less b a = false)

/-! ## `sort.Slice` of the Go standard library

`getMonitors` orders the slice with `sort.Slice`, which is not part of `main.go`.
What follows is the pattern-defeating quicksort that `sort.Slice` runs in Go 1.19
and later (file `zsortfunc.go` of package `sort`), function by function and under
the library's names, on a list with the `Less(i, j)` and `Swap(i, j)` operations of
`lessSwap`.  Loops are recursions on the number of iterations left. -/

/-- The method `data.Less(i, j)`. -/
def lessAt (less : Monitor → Monitor → Bool) (data : List Monitor) (i j : Nat) : Bool :=
  match data[i]?, data[j]? with
  | some a, some b => less a b
  | _, _ => false

/-- The method `data.Swap(i, j)`. -/
def swapAt (data : List Monitor) (i j : Nat) : List Monitor :=
  match data[i]?, data[j]? with
  | some a, some b => (data.set i b).set j a
  | _, _ => data

/-- The inner loop of `insertionSort_func`:
`for j := i; j > a && data.Less(j, j-1); j-- { data.Swap(j, j-1) }`. -/
def insertionShift (less : Monitor → Monitor → Bool) (a : Nat) :
    Nat → List Monitor → List Monitor
  | 0, data => data
  | j + 1, data =>
    if j + 1 > a ∧ lessAt less data (j + 1) j = true then
      insertionShift less a j (swapAt data (j + 1) j)
    else data

/-- The outer loop of `insertionSort_func`, `for i := a + 1; i < b; i++`, with `n`
iterations left. -/
def insertionLoop (less : Monitor → Monitor → Bool) (a : Nat) :
    Nat → Nat → List Monitor → List Monitor
  | 0, _, data => data
  | n + 1, i, data => insertionLoop less a n (i + 1) (insertionShift less a i data)

/-- The function `insertionSort_func(data, a, b)`. -/
def insertionSort_func (less : Monitor → Monitor → Bool) (data : List Monitor) (a b : Nat) :
    List Monitor :=
  insertionLoop less a (b - (a + 1)) (a + 1) data

/-- The function `siftDown_func(data, lo, hi, first)`; the root index grows in
every iteration, so `hi` iterations are enough. -/
def siftDown_func (less : Monitor → Monitor → Bool) (hi first : Nat) :
    Nat → Nat → List Monitor → List Monitor
  | 0, _, data => data
  | fuel + 1, root, data =>
    let child := 2 * root + 1
    if child ≥ hi then data
    else
      let child :=
        if child + 1 < hi ∧ lessAt less data (first + child) (first + child + 1) = true then
          child + 1
        else child
      if lessAt less data (first + root) (first + child) = false then data
      else siftDown_func less hi first fuel child (swapAt data (first + root) (first + child))

/-- First loop of `heapSort_func`: `for i := (hi - 1) / 2; i >= 0; i--`. -/
def heapBuild (less : Monitor → Monitor → Bool) (hi first : Nat) :
    Nat → List Monitor → List Monitor
  | 0, data => siftDown_func less hi first hi 0 data
  | i + 1, data => heapBuild less hi first i (siftDown_func less hi first hi (i + 1) data)

/-- Second loop of `heapSort_func`: `for i := hi - 1; i >= 0; i--`, entered with
`i + 1` as the first argument. -/
def heapPop (less : Monitor → Monitor → Bool) (first : Nat) :
    Nat → List Monitor → List Monitor
  | 0, data => data
  | i + 1, data =>
    heapPop less first i (siftDown_func less i first i 0 (swapAt data first (first + i)))

/-- The function `heapSort_func(data, a, b)`. -/
def heapSort_func (less : Monitor → Monitor → Bool) (data : List Monitor) (a b : Nat) :
    List Monitor :=
  let first := a
  let hi := b - a
  heapPop less first hi (heapBuild less hi first ((hi - 1) / 2) data)

/-- The method `Next` of `xorshift`, on 64-bit words. -/
def xorshiftNext (r : Nat) : Nat :=
  let r := Nat.xor r ((r <<< 13) % 2 ^ 64)
  let r := Nat.xor r (r >>> 7)
  Nat.xor r ((r <<< 17) % 2 ^ 64)

/-- Halving loop behind `bits.Len`: one bit per halving until the value is 0. -/
def bitsLenLoop : Nat → Nat → Nat
  | 0, _ => 0
  | fuel + 1, n => if n = 0 then 0 else bitsLenLoop fuel (n / 2) + 1

/-- The function `bits.Len`: the number of bits needed to write `n`. -/
def bitsLen (n : Nat) : Nat :=
  bitsLenLoop n n

/-- The function `breakPatterns_func(data, a, b)`. -/
def breakPatterns_func (data : List Monitor) (a b : Nat) : List Monitor :=
  let length := b - a
  if length ≥ 8 then
    let modulus := 2 ^ bitsLen length
    let idx := a + (length / 4) * 2
    let step := fun (st : Nat × List Monitor) (i : Nat) =>
      let random := xorshiftNext st.1
      let other := random % modulus
      let other := if other ≥ length then other - length else other
      (random, swapAt st.2 (idx - 1 + i) (a + other))
    (step (step (step (length, data) 0) 1) 2).2
  else data

/-- The type `sortedHint`. -/
inductive SortedHint where
  | unknownHint
  | increasingHint
  | decreasingHint
deriving DecidableEq, Repr

/-- The function `order2_func(data, a, b, swaps)`, returning the pair and the
updated counter. -/
def order2_func (less : Monitor → Monitor → Bool) (data : List Monitor) (a b swaps : Nat) :
    Nat × Nat × Nat :=
  if lessAt less data b a = true then (b, a, swaps + 1) else (a, b, swaps)

/-- The function `median_func(data, a, b, c, swaps)`: the three `order2_func` calls
in source order, the result `b` and the counter. -/
def median_func (less : Monitor → Monitor → Bool) (data : List Monitor) (a b c swaps : Nat) :
    Nat × Nat :=
  let o1 := order2_func less data a b swaps
  let o2 := order2_func less data o1.2.1 c o1.2.2
  let o3 := order2_func less data o1.1 o2.1 o2.2.2
  (o3.2.1, o3.2.2)

/-- The function `medianAdjacent_func(data, a, swaps)`. -/
def medianAdjacent_func (less : Monitor → Monitor → Bool) (data : List Monitor) (a swaps : Nat) :
    Nat × Nat :=
  median_func less data (a - 1) a (a + 1) swaps

/-- The function `choosePivot_func(data, a, b)`; `shortestNinther = 50`,
`maxSwaps = 4 * 3`. -/
def choosePivot_func (less : Monitor → Monitor → Bool) (data : List Monitor) (a b : Nat) :
    Nat × SortedHint :=
  let l := b - a
  let i := a + l / 4 * 1
  let j := a + l / 4 * 2
  let k := a + l / 4 * 3
  let js : Nat × Nat :=
    if l ≥ 8 then
      if l ≥ 50 then
        let mi := medianAdjacent_func less data i 0
        let mj := medianAdjacent_func less data j mi.2
        let mk := medianAdjacent_func less data k mj.2
        median_func less data mi.1 mj.1 mk.1 mk.2
      else median_func less data i j k 0
    else (j, 0)
  if js.2 = 0 then (js.1, SortedHint.increasingHint)
  else if js.2 = 4 * 3 then (js.1, SortedHint.decreasingHint)
  else (js.1, SortedHint.unknownHint)

/-- The function `reverseRange_func`: `for i < j { Swap(i, j); i++; j-- }`, with
`n` iterations left. -/
def reverseLoop : Nat → Nat → Nat → List Monitor → List Monitor
  | 0, _, _, data => data
  | n + 1, i, j, data => if i < j then reverseLoop n (i + 1) (j - 1) (swapAt data i j) else data

/-- The function `reverseRange_func(data, a, b)`. -/
def reverseRange_func (data : List Monitor) (a b : Nat) : List Monitor :=
  reverseLoop (b - a) a (b - 1) data

/-- Loop `for i < b && !data.Less(i, i-1) { i++ }` of `partialInsertionSort_func`,
with `n = b - i` positions left; returns the new `i`. -/
def skipOrdered (less : Monitor → Monitor → Bool) (data : List Monitor) : Nat → Nat → Nat
  | 0, i => i
  | n + 1, i => if lessAt less data i (i - 1) = false then skipOrdered less data n (i + 1) else i

/-- Loop `for j := i - 1; j >= 1; j--` of `partialInsertionSort_func`, entered with
`j` as the first argument. -/
def shiftSmaller (less : Monitor → Monitor → Bool) : Nat → List Monitor → List Monitor
  | 0, data => data
  | j + 1, data =>
    if lessAt less data (j + 1) j = false then data
    else shiftSmaller less j (swapAt data (j + 1) j)

/-- Loop `for j := i + 1; j < b; j++` of `partialInsertionSort_func`, with
`n = b - j` positions left. -/
def shiftGreater (less : Monitor → Monitor → Bool) : Nat → Nat → List Monitor → List Monitor
  | 0, _, data => data
  | n + 1, j, data =>
    if lessAt less data j (j - 1) = false then data
    else shiftGreater less n (j + 1) (swapAt data j (j - 1))

/-- The `for j := 0; j < maxSteps; j++` loop of `partialInsertionSort_func`, with
`steps` iterations left. -/
def partialInsertionLoop (less : Monitor → Monitor → Bool) (a b : Nat) :
    Nat → Nat → List Monitor → List Monitor × Bool
  | 0, _, data => (data, false)
  | steps + 1, i, data =>
    let i := skipOrdered less data (b - i) i
    if i = b then (data, true)
    else if b - a < 50 then (data, false)
    else
      let data := swapAt data i (i - 1)
      let data := if i - a ≥ 2 then shiftSmaller less (i - 1) data else data
      let data := if b - i ≥ 2 then shiftGreater less (b - (i + 1)) (i + 1) data else data
      partialInsertionLoop less a b steps i data

/-- The function `partialInsertionSort_func(data, a, b)`, `maxSteps = 5`. -/
def partialInsertionSort_func (less : Monitor → Monitor → Bool) (data : List Monitor)
    (a b : Nat) : List Monitor × Bool :=
  partialInsertionLoop less a b 5 (a + 1) data

/-- Loop `for i <= j && data.Less(i, a) { i++ }` of `partition_func`, with
`n = j + 1 - i` positions left; returns the new `i`. -/
def scanLess (less : Monitor → Monitor → Bool) (data : List Monitor) (a : Nat) :
    Nat → Nat → Nat
  | 0, i => i
  | n + 1, i => if lessAt less data i a = true then scanLess less data a n (i + 1) else i

/-- Loop `for i <= j && !data.Less(j, a) { j-- }` of `partition_func`, with
`n = j + 1 - i` positions left; returns the new `j`. -/
def scanNotLess (less : Monitor → Monitor → Bool) (data : List Monitor) (a : Nat) :
    Nat → Nat → Nat
  | 0, j => j
  | n + 1, j => if lessAt less data j a = false then scanNotLess less data a n (j - 1) else j

/-- The `for { ... }` loop of `partition_func`; each iteration that does not break
moves `i` and `j` towards each other. -/
def partitionLoop (less : Monitor → Monitor → Bool) (a : Nat) :
    Nat → Nat → Nat → List Monitor → List Monitor × Nat
  | 0, _, j, data => (data, j)
  | fuel + 1, i, j, data =>
    let i := scanLess less data a (j + 1 - i) i
    let j := scanNotLess less data a (j + 1 - i) j
    if i > j then (data, j)
    else partitionLoop less a fuel (i + 1) (j - 1) (swapAt data i j)

/-- The function `partition_func(data, a, b, pivot)`: the slice, `newpivot` and
`alreadyPartitioned`. -/
def partition_func (less : Monitor → Monitor → Bool) (data : List Monitor) (a b pivot : Nat) :
    List Monitor × Nat × Bool :=
  let data := swapAt data a pivot
  let i := a + 1
  let j := b - 1
  let i := scanLess less data a (j + 1 - i) i
  let j := scanNotLess less data a (j + 1 - i) j
  if i > j then (swapAt data j a, j, true)
  else
    let data := swapAt data i j
    let (data, j) := partitionLoop less a (b - a) (i + 1) (j - 1) data
    (swapAt data j a, j, false)

/-- Loop `for i <= j && !data.Less(a, i) { i++ }` of `partitionEqual_func`. -/
def scanNotGreater (less : Monitor → Monitor → Bool) (data : List Monitor) (a : Nat) :
    Nat → Nat → Nat
  | 0, i => i
  | n + 1, i =>
    if lessAt less data a i = false then scanNotGreater less data a n (i + 1) else i

/-- Loop `for i <= j && data.Less(a, j) { j-- }` of `partitionEqual_func`. -/
def scanGreater (less : Monitor → Monitor → Bool) (data : List Monitor) (a : Nat) :
    Nat → Nat → Nat
  | 0, j => j
  | n + 1, j => if lessAt less data a j = true then scanGreater less data a n (j - 1) else j

/-- The `for { ... }` loop of `partitionEqual_func`. -/
def partitionEqualLoop (less : Monitor → Monitor → Bool) (a : Nat) :
    Nat → Nat → Nat → List Monitor → List Monitor × Nat
  | 0, i, _, data => (data, i)
  | fuel + 1, i, j, data =>
    let i := scanNotGreater less data a (j + 1 - i) i
    let j := scanGreater less data a (j + 1 - i) j
    if i > j then (data, i)
    else partitionEqualLoop less a fuel (i + 1) (j - 1) (swapAt data i j)

/-- The function `partitionEqual_func(data, a, b, pivot)`. -/
def partitionEqual_func (less : Monitor → Monitor → Bool) (data : List Monitor)
    (a b pivot : Nat) : List Monitor × Nat :=
  partitionEqualLoop less a (b - a + 1) (a + 1) (b - 1) (swapAt data a pivot)

/-- The function `pdqsort_func(data, a, b, limit)`, with the loop variables
`wasBalanced`, `wasPartitioned` as arguments.  Every loop iteration and every
recursive call works on a strictly shorter range, so `fuel > b - a` is never used
up. -/
def pdqsort_func (less : Monitor → Monitor → Bool) :
    Nat → List Monitor → Nat → Nat → Nat → Bool → Bool → List Monitor
  | 0, data, _, _, _, _, _ => data
  | fuel + 1, data, a, b, limit, wasBalanced, wasPartitioned =>
    let length := b - a
    if length ≤ 12 then insertionSort_func less data a b
    else if limit = 0 then heapSort_func less data a b
    else
      let data := if wasBalanced = false then breakPatterns_func data a b else data
      let limit := if wasBalanced = false then limit - 1 else limit
      let ph := choosePivot_func less data a b
      let data :=
        if ph.2 = SortedHint.decreasingHint then reverseRange_func data a b else data
      let pivot :=
        if ph.2 = SortedHint.decreasingHint then (b - 1) - (ph.1 - a) else ph.1
      let hint :=
        if ph.2 = SortedHint.decreasingHint then SortedHint.increasingHint else ph.2
      let tried :=
        if wasBalanced = true ∧ wasPartitioned = true ∧ hint = SortedHint.increasingHint then
          partialInsertionSort_func less data a b
        else (data, false)
      if tried.2 = true then tried.1
      else
        let data := tried.1
        if a > 0 ∧ lessAt less data (a - 1) pivot = false then
          let pe := partitionEqual_func less data a b pivot
          pdqsort_func less fuel pe.1 pe.2 b limit wasBalanced wasPartitioned
        else
          let pt := partition_func less data a b pivot
          let mid := pt.2.1
          let leftLen := mid - a
          let rightLen := b - mid
          let balanceThreshold := length / 8
          if leftLen < rightLen then
            pdqsort_func less fuel (pdqsort_func less fuel pt.1 a mid limit true true)
              (mid + 1) b limit (decide (leftLen ≥ balanceThreshold)) pt.2.2
          else
            pdqsort_func less fuel (pdqsort_func less fuel pt.1 (mid + 1) b limit true true)
              a mid limit (decide (rightLen ≥ balanceThreshold)) pt.2.2

/-- The function `sort.Slice(x, less)`. -/
def sortSlice (data : List Monitor) (less : Monitor → Monitor → Bool) : List Monitor :=
  pdqsort_func less (data.length + 1) data 0 data.length (bitsLen data.length) true true

/-- The function `getMonitors` (lines 50-85); `none` is a return with `err != nil`. -/
def getMonitors (srv : XServer) : Option (List Monitor) :=
  if srv.randrInit = false then none
  else
    match srv.screenResources with
    | none => none
    | some outputs => some (sortSlice (collect srv outputs []) byOffsetX)

/-- An X server with 13 connected outputs: outputs 0 to 11 are stacked at
`x = 1920` (`y = 1080 * output`), output 12 is at `x = 0`. -/
def stacked : XServer where
  randrInit := true
  screenResources := some (List.range 13)
  outputInfo := fun output => some ⟨ConnectionConnected, [output], output⟩
  crtcInfo := fun crtc =>
    if crtc = 12 then some ⟨0, 0, 1920, 1080⟩ else some ⟨1920, 1080 * crtc, 1920, 1080⟩

/-- An X server with four outputs: a disconnected one, two connected ones stacked
at `x = 1920`, and a connected one at `x = 0` found last. -/
def desk : XServer where
  randrInit := true
  screenResources := some [7, 8, 9, 10]
  outputInfo := fun output =>
    if output = 7 then some ⟨1, [1], 0⟩ else some ⟨ConnectionConnected, [output], output⟩
  crtcInfo := fun crtc =>
    if crtc = 8 then some ⟨1920, 0, 1920, 1080⟩
    else if crtc = 9 then some ⟨1920, 1080, 1920, 1080⟩
    else if crtc = 10 then some ⟨0, 0, 1920, 1080⟩
    else none

/-- Sixteen monitors with `offsetX` 0, 1, ..., 15. -/
def ramp : List Monitor :=
  (List.range 16).map (fun n => ⟨1, 1, (n : Int), 0⟩)

/-- A sort that reverses the slice before handing it to `sort.Slice`. -/
def reversingSlice (data : List Monitor) (less : Monitor → Monitor → Bool) : List Monitor :=
  sortSlice data.reverse less

/-- Two runs in a row: the rectangle of the first run (direction `d1`) is the
window geometry `x, width` read by the second run (direction `d2`). -/
def mainTwice (monitors : List Monitor) (d1 d2 : Direction) (x width : Int) : Option Rect :=
  (main monitors x width d1).bind (fun r => main monitors r.x r.width d2)

/-- Two monitors of width 10 side by side. -/
def tiny : List Monitor :=
  [⟨10, 10, 0, 0⟩, ⟨10, 10, 10, 0⟩]

/-! ## Predicates on slices used to state what the sort does -/

/-- The `offsetX` of `data[i]` (0 past the end). -/
def keyAt (data : List Monitor) (i : Nat) : Int :=
  match data[i]? with
  | some m => m.offsetX
  | none => 0

/-- The slice `after` holds the elements of `before`, and differs from it only at
positions `a ≤ k < b`. -/
def Framed (a b : Nat) (before after : List Monitor) : Prop :=
  after.length = before.length ∧ (∀ k, k < a ∨ b ≤ k → after[k]? = before[k]?) ∧
    after.Perm before

/-- The keys at positions `a ≤ k < b` are non-decreasing. -/
def SortedOn (a b : Nat) (data : List Monitor) : Prop :=
  ∀ i j, a ≤ i → i ≤ j → j < b → keyAt data i ≤ keyAt data j

/-- The element just before position `a`, when there is one, is not above any
element at positions `a ≤ k < b`. -/
def Guard (a b : Nat) (data : List Monitor) : Prop :=
  a = 0 ∨ ∀ k, a ≤ k → k < b → keyAt data (a - 1) ≤ keyAt data k

/-- Heap order on `data[first + lo .. first + hi)`: no child `2p + 1`, `2p + 2` of a
node `p ≥ lo` has a larger key than `p`. -/
def HeapOn (first lo hi : Nat) (data : List Monitor) : Prop :=
  ∀ p c, lo ≤ p → (c = 2 * p + 1 ∨ c = 2 * p + 2) → c < hi →
    keyAt data (first + c) ≤ keyAt data (first + p)

/-! ## The membership index in the words of the specification -/

/-- Membership index as the specification words it: `i` is the position of the
first monitor whose span `[offsetX, offsetX + width)` holds the centre `c`, or `0`
when no monitor holds it. -/
def IsMembership (monitors : List Monitor) (c : Int) (i : Nat) : Prop :=
  (∃ m, monitors[i]? = some m ∧ (m.offsetX ≤ c ∧ c < m.offsetX + m.width) ∧
      ∀ j m', j < i → monitors[j]? = some m' → ¬ (m'.offsetX ≤ c ∧ c < m'.offsetX + m'.width)) ∨
  (i = 0 ∧ ∀ m ∈ monitors, ¬ (m.offsetX ≤ c ∧ c < m.offsetX + m.width))

/-! ## Lemmas on the scan loop and on indexing -/

theorem contains_iff (m : Monitor) (c : Int) :
    contains m c = true ↔ (m.offsetX ≤ c ∧ c < m.offsetX + m.width) := by
  simp [contains]

theorem scan_some : ∀ (monitors : List Monitor) (c k r : Int),
    scan monitors c k = some r →
    ∃ j : Nat, r = k + j ∧ (∃ m, monitors[j]? = some m ∧ contains m c = true) ∧
      ∀ j' m', j' < j → monitors[j']? = some m' → contains m' c = false
  | [], _, _, _, h => by simp [scan] at h
  | m :: rest, c, k, r, h => by
    by_cases hc : contains m c = true
    · simp only [scan, hc, if_true, Option.some.injEq] at h
      exact ⟨0, by simp [h], ⟨m, by simp, hc⟩, fun j' _ hj => absurd hj (Nat.not_lt_zero j')⟩
    · simp only [scan, hc, Bool.false_eq_true, if_false] at h
      obtain ⟨j, hr, ⟨mj, hmj, hcj⟩, hfirst⟩ := scan_some rest c (k + 1) r h
      refine ⟨j + 1, by rw [hr]; push_cast; ring, ⟨mj, by simpa using hmj, hcj⟩, ?_⟩
      intro j' m' hj' hm'
      cases j' with
      | zero =>
        simp only [List.getElem?_cons_zero, Option.some.injEq] at hm'
        subst hm'
        simpa using hc
      | succ n =>
        simp only [List.getElem?_cons_succ] at hm'
        exact hfirst n m' (by omega) hm'

theorem scan_none : ∀ (monitors : List Monitor) (c k : Int),
    scan monitors c k = none → ∀ m ∈ monitors, contains m c = false
  | [], _, _, _ => by simp
  | m :: rest, c, k, h => by
    by_cases hc : contains m c = true
    · simp [scan, hc] at h
    · simp only [scan, hc, Bool.false_eq_true, if_false] at h
      intro m' hm'
      rcases List.mem_cons.mp hm' with rfl | hin
      · simpa using hc
      · exact scan_none rest c (k + 1) h m' hin

/-- The scan loop computes the membership index of the specification. -/
theorem findCurrent_isMembership (monitors : List Monitor) (c : Int) (hne : monitors ≠ []) :
    ∃ i : Nat, findCurrent monitors c = (i : Int) ∧ i < monitors.length ∧
      IsMembership monitors c i := by
  unfold findCurrent
  cases hs : scan monitors c 0 with
  | none =>
    refine ⟨0, by simp, List.length_pos.mpr hne, Or.inr ⟨rfl, ?_⟩⟩
    intro m hm hc
    have := scan_none monitors c 0 hs m hm
    rw [(contains_iff m c).mpr hc] at this
    exact Bool.noConfusion this
  | some r =>
    obtain ⟨j, hr, ⟨mj, hmj, hcj⟩, hfirst⟩ := scan_some monitors c 0 r hs
    have hlt : j < monitors.length := by
      rcases Nat.lt_or_ge j monitors.length with h | h
      · exact h
      · rw [List.getElem?_eq_none h] at hmj
        exact Option.noConfusion hmj
    refine ⟨j, by simp [hr], hlt, Or.inl ⟨mj, hmj, (contains_iff mj c).mp hcj, ?_⟩⟩
    intro j' m' hj' hm' hc'
    have := hfirst j' m' hj' hm'
    rw [(contains_iff m' c).mpr hc'] at this
    exact Bool.noConfusion this

/-- The membership index of the specification is unique. -/
theorem isMembership_unique (monitors : List Monitor) (c : Int) (i j : Nat)
    (hi : IsMembership monitors c i) (hj : IsMembership monitors c j) : i = j := by
  rcases hi with ⟨m, hm, hc, hfirst⟩ | ⟨hi0, hnone⟩
  · rcases hj with ⟨n, hn, hcn, hfirstn⟩ | ⟨_, hnone⟩
    · rcases Nat.lt_trichotomy i j with h | h | h
      · exact absurd hc (hfirstn i m h hm)
      · exact h
      · exact absurd hcn (hfirst j n h hn)
    · exact absurd hc (hnone m (List.getElem?_mem hm))
  · rcases hj with ⟨n, hn, hcn, _⟩ | ⟨hj0, _⟩
    · exact absurd hcn (hnone n (List.getElem?_mem hn))
    · rw [hi0, hj0]

/-- The scan loop returns exactly the index the specification describes. -/
theorem findCurrent_eq (monitors : List Monitor) (c : Int) (i : Nat) (hne : monitors ≠ [])
    (hi : IsMembership monitors c i) : findCurrent monitors c = (i : Int) := by
  obtain ⟨k, hk, _, hmem⟩ := findCurrent_isMembership monitors c hne
  rw [hk, isMembership_unique monitors c k i hmem hi]

theorem index_natCast (monitors : List Monitor) (i : Nat) :
    index monitors (i : Int) = monitors[i]? := by
  simp [index]

theorem index_of_lt (monitors : List Monitor) (i : Int) (h0 : 0 ≤ i)
    (h1 : i < monitors.length) : ∃ m, index monitors i = some m ∧ m ∈ monitors := by
  have hlt : i.toNat < monitors.length := by omega
  refine ⟨monitors[i.toNat], ?_, List.getElem_mem hlt⟩
  simp [index, h0, List.getElem?_eq_getElem hlt]

theorem clamp_range (len : Int) (hlen : 0 < len) (c : Cursor) :
    0 ≤ (clamp len c).currentIndex ∧ (clamp len c).currentIndex < len ∧
      ((clamp len c).moveToOther = true →
        0 ≤ c.currentIndex ∧ c.currentIndex < len ∧ clamp len c = c) := by
  unfold clamp
  by_cases h0 : c.currentIndex < 0
  · by_cases h1 : (0 : Int) ≥ len
    · omega
    · simp [h0, h1]
      omega
  · by_cases h1 : c.currentIndex ≥ len
    · simp [h0, h1]
      omega
    · simp [h0, h1]
      omega

/-- One run of the decision on a non-empty slice, stage by stage. -/
theorem place_run (monitors : List Monitor) (hne : monitors ≠ []) (x width : Int)
    (d : Direction) :
    ∃ (i : Nat) (m mon : Monitor),
      IsMembership monitors (winCenterX x width) i ∧
      findCurrent monitors (winCenterX x width) = (i : Int) ∧
      monitors[i]? = some m ∧
      hopAndClamp monitors x width d =
        some (hop m i x width d, clamp monitors.length (hop m i x width d)) ∧
      index monitors (clamp monitors.length (hop m i x width d)).currentIndex = some mon ∧
      mon ∈ monitors ∧
      main monitors x width d =
        some (target mon (clamp monitors.length (hop m i x width d)).moveToOther d) := by
  obtain ⟨i, hfind, hlt, hmem⟩ := findCurrent_isMembership monitors (winCenterX x width) hne
  have hlen : (0 : Int) < monitors.length := by
    have := List.length_pos.mpr hne
    omega
  have hm : monitors[i]? = some monitors[i] := List.getElem?_eq_getElem hlt
  have hhc : hopAndClamp monitors x width d =
      some (hop monitors[i] i x width d, clamp monitors.length (hop monitors[i] i x width d)) := by
    simp only [hopAndClamp, hfind, index_natCast, hm]
  obtain ⟨h0, h1, _⟩ := clamp_range monitors.length hlen (hop monitors[i] i x width d)
  obtain ⟨mon, hmon, hin⟩ := index_of_lt monitors _ h0 h1
  refine ⟨i, monitors[i], mon, hmem, hfind, hm, hhc, hmon, hin, ?_⟩
  have hl : monitors.length ≠ 0 := by
    have := List.length_pos.mpr hne
    omega
  simp only [main, hl, if_false, hhc, hmon]

/-- The decision, given the membership index in the specification's words. -/
theorem place_eq (monitors : List Monitor) (x width : Int) (d : Direction) (i : Nat)
    (m : Monitor) (hi : IsMembership monitors (winCenterX x width) i)
    (hm : monitors[i]? = some m) :
    main monitors x width d =
      (index monitors (clamp monitors.length (hop m i x width d)).currentIndex).map
        (fun mon => target mon (clamp monitors.length (hop m i x width d)).moveToOther d) := by
  have hne : monitors ≠ [] := by
    intro h
    rw [h] at hm
    simp at hm
  obtain ⟨k, m', mon, hk, _, hm', _, hmon, _, hplace⟩ := place_run monitors hne x width d
  have hik := isMembership_unique monitors _ k i hk hi
  subst hik
  rw [hm] at hm'
  cases hm'
  rw [hplace, hmon]
  rfl

theorem tdiv_two_bounds (w : Int) (hw : 0 < w) : 0 ≤ w.tdiv 2 ∧ w.tdiv 2 + w.tdiv 2 ≤ w ∧
    w ≤ w.tdiv 2 + w.tdiv 2 + 1 := by
  rw [Int.tdiv_eq_ediv (by omega) (by omega)]
  omega

/-- A left request with membership index 0 gives the left half of `monitors[0]`. -/
theorem place_left_zero (m0 : Monitor) (rest : List Monitor) (x width : Int)
    (hi : IsMembership (m0 :: rest) (winCenterX x width) 0) :
    main (m0 :: rest) x width Direction.left =
      some ⟨m0.offsetX, 0, m0.width.tdiv 2, m0.height⟩ := by
  have hlen : ¬ ((0 : Int) ≥ ((rest.length : Int) + 1)) := by omega
  have hc : clamp (m0 :: rest).length (hop m0 ((0 : Nat) : Int) x width Direction.left) =
      ⟨0, false⟩ := by
    by_cases hedge : x ≤ m0.offsetX + 5
    · simp [hop, clamp, hedge, hlen]
    · simp [hop, clamp, hedge, hlen]
  rw [place_eq (m0 :: rest) x width Direction.left 0 m0 hi (by simp), hc]
  simp [index, target]

/-- A right request with membership index 0 and no edge hit gives the right half of
`monitors[0]`. -/
theorem place_right_zero (m0 : Monitor) (rest : List Monitor) (x width : Int)
    (hi : IsMembership (m0 :: rest) (winCenterX x width) 0)
    (hedge : x + width < m0.offsetX + m0.width - 5) :
    main (m0 :: rest) x width Direction.right =
      some ⟨m0.offsetX + m0.width - m0.width.tdiv 2, 0, m0.width.tdiv 2, m0.height⟩ := by
  have hlen : ¬ ((0 : Int) ≥ ((rest.length : Int) + 1)) := by omega
  have hno : ¬ (x + width ≥ m0.offsetX + m0.width - 5) := by omega
  have hc : clamp (m0 :: rest).length (hop m0 ((0 : Nat) : Int) x width Direction.right) =
      ⟨0, false⟩ := by
    simp [hop, clamp, hno, hlen]
  rw [place_eq (m0 :: rest) x width Direction.right 0 m0 hi (by simp), hc]
  simp [index, target]

/-- A centre inside the span of the first monitor has membership index 0. -/
theorem isMembership_head (m0 : Monitor) (rest : List Monitor) (c : Int)
    (h0 : m0.offsetX ≤ c) (h1 : c < m0.offsetX + m0.width) :
    IsMembership (m0 :: rest) c 0 :=
  Or.inl ⟨m0, by simp, ⟨h0, h1⟩, fun j _ hj => absurd hj (Nat.not_lt_zero j)⟩

/-- The left half of a monitor of positive width has its centre on that monitor. -/
theorem centre_of_left_half (m : Monitor) (hw : 0 < m.width) :
    m.offsetX ≤ winCenterX m.offsetX (m.width.tdiv 2) ∧
      winCenterX m.offsetX (m.width.tdiv 2) < m.offsetX + m.width := by
  unfold winCenterX
  obtain ⟨hb0, hb1, _⟩ := tdiv_two_bounds m.width hw
  have h := Int.tdiv_eq_ediv hb0 (show (0 : Int) ≤ 2 by omega)
  rw [h]
  omega

/-! ## Placement engine: the claims -/

/-- C1. On a non-empty monitor slice whose monitors have positive width and
non-negative `offsetX`, every window and direction reach `moveResizeWindow` with
`0 ≤ x`, `y = 0`, and width `mon.width / 2`, height `mon.height` for some monitor
`mon` of the slice.  Sortedness and positive heights are not needed. -/
theorem place_on_some_monitor (monitors : List Monitor) (x width : Int) (d : Direction)
    (hne : monitors ≠ []) (hpos : ∀ m ∈ monitors, 0 < m.width ∧ 0 ≤ m.offsetX) :
    ∃ r, main monitors x width d = some r ∧ 0 ≤ r.x ∧ r.y = 0 ∧
      ∃ mon ∈ monitors, r.width = mon.width.tdiv 2 ∧ r.width = mon.width / 2 ∧
        r.height = mon.height := by
  obtain ⟨i, m, mon, _, _, _, _, _, hin, hplace⟩ := place_run monitors hne x width d
  obtain ⟨hw, ho⟩ := hpos mon hin
  obtain ⟨hb0, hb1, _⟩ := tdiv_two_bounds mon.width hw
  refine ⟨_, hplace, ?_, rfl, mon, hin, rfl, ?_, rfl⟩
  · simp only [target]
    split_ifs <;> omega
  · simp only [target]
    exact Int.tdiv_eq_ediv (by omega) (by omega)

theorem place_on_some_monitor_witness :
    dual ≠ [] ∧ (∀ m ∈ dual, 0 < m.width ∧ 0 ≤ m.offsetX) ∧
    ∃ r, main dual 100 500 Direction.right = some r ∧ 0 ≤ r.x ∧ r.y = 0 ∧
      ∃ mon ∈ dual, r.width = mon.width.tdiv 2 ∧ r.width = mon.width / 2 ∧
        r.height = mon.height :=
  ⟨by decide, by decide,
    place_on_some_monitor dual 100 500 Direction.right (by decide) (by decide)⟩

/-- C2. Edge hit with an existing neighbour.  With `i` the membership index of the
window and `m = monitors[i]`: (a) direction right, right edge within 5 pixels of
the right edge of `m` and a monitor `n` at `i + 1` give the left half of `n`;
(b) direction left, left edge within 5 pixels of the left edge of `m` and `i ≥ 1`
give the right half of `p = monitors[i - 1]`. -/
theorem hop_to_neighbour (monitors : List Monitor) (x width : Int) (i : Nat) (m : Monitor)
    (hi : IsMembership monitors (winCenterX x width) i) (hm : monitors[i]? = some m) :
    (∀ n, monitors[i + 1]? = some n → x + width ≥ m.offsetX + m.width - 5 →
      main monitors x width Direction.right =
        some ⟨n.offsetX, 0, n.width.tdiv 2, n.height⟩) ∧
    (∀ p, 1 ≤ i → monitors[i - 1]? = some p → x ≤ m.offsetX + 5 →
      main monitors x width Direction.left =
        some ⟨p.offsetX + p.width - p.width.tdiv 2, 0, p.width.tdiv 2, p.height⟩) := by
  constructor
  · intro n hn hedge
    have hlt : i + 1 < monitors.length := by
      rcases Nat.lt_or_ge (i + 1) monitors.length with h | h
      · exact h
      · rw [List.getElem?_eq_none h] at hn
        exact Option.noConfusion hn
    have hc : clamp monitors.length (hop m i x width Direction.right) = ⟨((i + 1 : Nat) : Int), true⟩ := by
      have h1 : ¬ ((i : Int) + 1 < 0) := by omega
      have h2 : ¬ ((i : Int) + 1 ≥ monitors.length) := by omega
      simp [hop, clamp, hedge, h1, h2]
    rw [place_eq monitors x width Direction.right i m hi hm, hc, index_natCast, hn]
    simp [target]
  · intro p hi1 hp hedge
    have hlt : i - 1 < monitors.length := by
      rcases Nat.lt_or_ge (i - 1) monitors.length with h | h
      · exact h
      · rw [List.getElem?_eq_none h] at hp
        exact Option.noConfusion hp
    have hc : clamp monitors.length (hop m i x width Direction.left) = ⟨((i - 1 : Nat) : Int), true⟩ := by
      have h1 : ¬ ((i : Int) - 1 < 0) := by omega
      have h2 : ¬ ((i : Int) - 1 ≥ monitors.length) := by omega
      have h3 : ((i - 1 : Nat) : Int) = (i : Int) - 1 := by omega
      simp [hop, clamp, hedge, h1, h2, h3]
    rw [place_eq monitors x width Direction.left i m hi hm, hc, index_natCast, hp]
    simp [target]

theorem isMembership_dual_0 (c : Int) (h0 : 0 ≤ c) (h1 : c < 1920) :
    IsMembership dual c 0 :=
  Or.inl ⟨⟨1920, 1080, 0, 0⟩, rfl, ⟨by simpa using h0, by simpa using h1⟩,
    fun j _ hj => absurd hj (Nat.not_lt_zero j)⟩

theorem isMembership_dual_1 (c : Int) (h0 : 1920 ≤ c) (h1 : c < 3840) :
    IsMembership dual c 1 := by
  refine Or.inl ⟨⟨1920, 1080, 1920, 0⟩, rfl, ⟨by simpa using h0, by simp; omega⟩, ?_⟩
  intro j m' hj hm'
  have hj0 : j = 0 := by omega
  subst hj0
  simp only [dual, List.getElem?_cons_zero, Option.some.injEq] at hm'
  subst hm'
  simp
  omega

theorem hop_to_neighbour_witness :
    (IsMembership dual (winCenterX 960 960) 0 ∧
      main dual 960 960 Direction.right = some ⟨1920, 0, 960, 1080⟩) ∧
    (IsMembership dual (winCenterX 1920 960) 1 ∧
      main dual 1920 960 Direction.left = some ⟨960, 0, 960, 1080⟩) :=
  ⟨⟨isMembership_dual_0 _ (by decide) (by decide),
    (hop_to_neighbour dual 960 960 0 ⟨1920, 1080, 0, 0⟩
      (isMembership_dual_0 _ (by decide) (by decide)) rfl).1
      ⟨1920, 1080, 1920, 0⟩ rfl (by decide)⟩,
   ⟨isMembership_dual_1 _ (by decide) (by decide),
    (hop_to_neighbour dual 1920 960 1 ⟨1920, 1080, 1920, 0⟩
      (isMembership_dual_1 _ (by decide) (by decide)) rfl).2
      ⟨1920, 1080, 0, 0⟩ (by decide) rfl (by decide)⟩⟩

/-- C3. Without an edge hit the window is snapped on its own monitor.  With `m`
the membership monitor: direction right and right edge more than 5 pixels short of
the right edge of `m` give the right half of `m`; direction left and left edge
more than 5 pixels past the left edge of `m` give the left half of `m`. -/
theorem snap_on_own_monitor (monitors : List Monitor) (x width : Int) (i : Nat) (m : Monitor)
    (hi : IsMembership monitors (winCenterX x width) i) (hm : monitors[i]? = some m) :
    (x + width < m.offsetX + m.width - 5 →
      main monitors x width Direction.right =
        some ⟨m.offsetX + m.width - m.width.tdiv 2, 0, m.width.tdiv 2, m.height⟩) ∧
    (x > m.offsetX + 5 →
      main monitors x width Direction.left =
        some ⟨m.offsetX, 0, m.width.tdiv 2, m.height⟩) := by
  have hlt : i < monitors.length := by
    rcases Nat.lt_or_ge i monitors.length with h | h
    · exact h
    · rw [List.getElem?_eq_none h] at hm
      exact Option.noConfusion hm
  have h1 : ¬ ((i : Int) < 0) := by omega
  have h2 : ¬ ((i : Int) ≥ monitors.length) := by omega
  constructor
  · intro hedge
    have hno : ¬ (x + width ≥ m.offsetX + m.width - 5) := by omega
    have hc : clamp monitors.length (hop m i x width Direction.right) = ⟨(i : Int), false⟩ := by
      simp [hop, clamp, hno, h1, h2]
    rw [place_eq monitors x width Direction.right i m hi hm, hc, index_natCast, hm]
    simp [target]
  · intro hedge
    have hno : ¬ (x ≤ m.offsetX + 5) := by omega
    have hc : clamp monitors.length (hop m i x width Direction.left) = ⟨(i : Int), false⟩ := by
      simp [hop, clamp, hno, h1, h2]
    rw [place_eq monitors x width Direction.left i m hi hm, hc, index_natCast, hm]
    simp [target]

theorem snap_on_own_monitor_witness :
    (IsMembership dual (winCenterX 100 500) 0 ∧
      main dual 100 500 Direction.right = some ⟨960, 0, 960, 1080⟩) ∧
    (IsMembership dual (winCenterX 2500 500) 1 ∧
      main dual 2500 500 Direction.left = some ⟨1920, 0, 960, 1080⟩) :=
  ⟨⟨isMembership_dual_0 _ (by decide) (by decide),
    (snap_on_own_monitor dual 100 500 0 ⟨1920, 1080, 0, 0⟩
      (isMembership_dual_0 _ (by decide) (by decide)) rfl).1 (by decide)⟩,
   ⟨isMembership_dual_1 _ (by decide) (by decide),
    (snap_on_own_monitor dual 2500 500 1 ⟨1920, 1080, 1920, 0⟩
      (isMembership_dual_1 _ (by decide) (by decide)) rfl).2 (by decide)⟩⟩

/-- C4. Left at the leftmost monitor clamps.  When the membership index is 0
(a monitor-0 hit or the fallback), a left request gives the left half of
`monitors[0]`, whether or not the left edge is within the 5-pixel tolerance. -/
theorem left_at_leftmost_clamps (m0 : Monitor) (rest : List Monitor) (x width : Int)
    (hi : IsMembership (m0 :: rest) (winCenterX x width) 0) :
    main (m0 :: rest) x width Direction.left =
      some ⟨m0.offsetX, 0, m0.width.tdiv 2, m0.height⟩ :=
  place_left_zero m0 rest x width hi

theorem left_at_leftmost_clamps_witness :
    IsMembership dual (winCenterX 0 960) 0 ∧
      main dual 0 960 Direction.left = some ⟨0, 0, 960, 1080⟩ :=
  ⟨isMembership_dual_0 _ (by decide) (by decide),
    left_at_leftmost_clamps ⟨1920, 1080, 0, 0⟩ [⟨1920, 1080, 1920, 0⟩] 0 960
      (isMembership_dual_0 _ (by decide) (by decide))⟩

/-- C7. Totality on non-empty slices, for arbitrary integer fields and without
sortedness: the membership index is in range where the edge test reads
`monitors[currentIndex]`, the index after the hop and the two clamps is in range
where `mon` is read, `moveToOther` survives the clamps only when the hop index
was already in range, and the run reaches `moveResizeWindow`. -/
theorem indices_in_range (monitors : List Monitor) (x width : Int) (d : Direction)
    (hne : monitors ≠ []) :
    ∃ (m : Monitor) (hopped clamped : Cursor) (mon : Monitor),
      0 ≤ findCurrent monitors (winCenterX x width) ∧
      findCurrent monitors (winCenterX x width) < monitors.length ∧
      index monitors (findCurrent monitors (winCenterX x width)) = some m ∧
      hopped = hop m (findCurrent monitors (winCenterX x width)) x width d ∧
      clamped = clamp monitors.length hopped ∧
      hopAndClamp monitors x width d = some (hopped, clamped) ∧
      0 ≤ clamped.currentIndex ∧ clamped.currentIndex < monitors.length ∧
      index monitors clamped.currentIndex = some mon ∧
      (clamped.moveToOther = true →
        0 ≤ hopped.currentIndex ∧ hopped.currentIndex < monitors.length) ∧
      main monitors x width d = some (target mon clamped.moveToOther d) := by
  obtain ⟨i, m, mon, _, hfind, hm, hhc, hmon, _, hplace⟩ := place_run monitors hne x width d
  have hlt : i < monitors.length := by
    rcases Nat.lt_or_ge i monitors.length with h | h
    · exact h
    · rw [List.getElem?_eq_none h] at hm
      exact Option.noConfusion hm
  have hlen : (0 : Int) < monitors.length := by omega
  obtain ⟨h0, h1, hmv⟩ := clamp_range monitors.length hlen (hop m i x width d)
  refine ⟨m, hop m i x width d, clamp monitors.length (hop m i x width d), mon, ?_, ?_, ?_, ?_,
    rfl, hhc, h0, h1, hmon, fun h => ⟨(hmv h).1, (hmv h).2.1⟩, hplace⟩
  · rw [hfind]; omega
  · rw [hfind]; omega
  · rw [hfind, index_natCast, hm]
  · rw [hfind]

theorem indices_in_range_witness :
    dual ≠ [] ∧
    ∃ (m : Monitor) (hopped clamped : Cursor) (mon : Monitor),
      0 ≤ findCurrent dual (winCenterX 0 960) ∧
      findCurrent dual (winCenterX 0 960) < dual.length ∧
      index dual (findCurrent dual (winCenterX 0 960)) = some m ∧
      hopped = hop m (findCurrent dual (winCenterX 0 960)) 0 960 Direction.left ∧
      clamped = clamp dual.length hopped ∧
      hopAndClamp dual 0 960 Direction.left = some (hopped, clamped) ∧
      0 ≤ clamped.currentIndex ∧ clamped.currentIndex < dual.length ∧
      index dual clamped.currentIndex = some mon ∧
      (clamped.moveToOther = true →
        0 ≤ hopped.currentIndex ∧ hopped.currentIndex < dual.length) ∧
      main dual 0 960 Direction.left = some (target mon clamped.moveToOther Direction.left) :=
  ⟨by decide, indices_in_range dual 0 960 Direction.left (by decide)⟩

/-- C10. The snapped rectangle lies within the target monitor horizontally and is
flush to one of its edges: with `mon = monitors[currentIndex]` after the clamps
and every monitor of positive width, `mon.offsetX ≤ x`,
`x + width ≤ mon.offsetX + mon.width`, and `x = mon.offsetX` or
`x + width = mon.offsetX + mon.width`. -/
theorem snapped_within_target (monitors : List Monitor) (x width : Int) (d : Direction)
    (hne : monitors ≠ []) (hpos : ∀ m ∈ monitors, 0 < m.width) :
    ∃ (hopped clamped : Cursor) (mon : Monitor) (r : Rect),
      hopAndClamp monitors x width d = some (hopped, clamped) ∧
      index monitors clamped.currentIndex = some mon ∧
      main monitors x width d = some r ∧
      mon.offsetX ≤ r.x ∧ r.x + r.width ≤ mon.offsetX + mon.width ∧
      (r.x = mon.offsetX ∨ r.x + r.width = mon.offsetX + mon.width) := by
  obtain ⟨i, m, mon, _, _, _, hhc, hmon, hin, hplace⟩ := place_run monitors hne x width d
  obtain ⟨hb0, hb1, _⟩ := tdiv_two_bounds mon.width (hpos mon hin)
  refine ⟨_, _, mon, _, hhc, hmon, hplace, ?_, ?_, ?_⟩
  · simp only [target]
    split_ifs <;> omega
  · simp only [target]
    split_ifs <;> omega
  · simp only [target]
    split_ifs <;> omega

theorem snapped_within_target_witness :
    dual ≠ [] ∧ (∀ m ∈ dual, 0 < m.width) ∧
    ∃ (hopped clamped : Cursor) (mon : Monitor) (r : Rect),
      hopAndClamp dual 960 960 Direction.right = some (hopped, clamped) ∧
      index dual clamped.currentIndex = some mon ∧
      main dual 960 960 Direction.right = some r ∧
      mon.offsetX ≤ r.x ∧ r.x + r.width ≤ mon.offsetX + mon.width ∧
      (r.x = mon.offsetX ∨ r.x + r.width = mon.offsetX + mon.width) :=
  ⟨by decide, by decide,
    snapped_within_target dual 960 960 Direction.right (by decide) (by decide)⟩

/-- C5, as amended.  Two monitors `m0, m1` that do not overlap in X, `m0` wider
than 10 pixels, and a window whose centre lies on `m0`: a left request followed by
a right request on the resulting rectangle gives the right half of `m0`, a
rectangle that ends at or before the left edge of `m1`. -/
theorem left_then_right_returns (m0 m1 : Monitor) (x width : Int)
    (hdisj : m0.offsetX + m0.width ≤ m1.offsetX) (hwide : 10 < m0.width)
    (hcentre : m0.offsetX ≤ winCenterX x width ∧ winCenterX x width < m0.offsetX + m0.width) :
    mainTwice [m0, m1] Direction.left Direction.right x width =
      some ⟨m0.offsetX + m0.width - m0.width.tdiv 2, 0, m0.width.tdiv 2, m0.height⟩ ∧
    (m0.offsetX + m0.width - m0.width.tdiv 2) + m0.width.tdiv 2 ≤ m1.offsetX := by
  have hw : 0 < m0.width := by omega
  obtain ⟨hb0, hb1, hb2⟩ := tdiv_two_bounds m0.width hw
  obtain ⟨hc0, hc1⟩ := centre_of_left_half m0 hw
  constructor
  · unfold mainTwice
    rw [place_left_zero m0 [m1] x width (isMembership_head m0 [m1] _ hcentre.1 hcentre.2)]
    simp only [Option.some_bind]
    exact place_right_zero m0 [m1] _ _ (isMembership_head m0 [m1] _ hc0 hc1) (by omega)
  · omega

theorem left_then_right_returns_witness :
    mainTwice dual Direction.left Direction.right 100 500 = some ⟨960, 0, 960, 1080⟩ ∧
      ((0 : Int) + 1920 - 960) + 960 ≤ 1920 :=
  left_then_right_returns ⟨1920, 1080, 0, 0⟩ ⟨1920, 1080, 1920, 0⟩ 100 500
    (by decide) (by decide) (by decide)

/-- C5 as stated fails on monitors at most 10 pixels wide: on `tiny` (sorted, not
overlapping, positive sizes) the window `x = 0, width = 10` is centred on monitor
0, the left request gives monitor 0's left half `0, 5`, whose right edge is then
within 5 pixels of monitor 0's right edge, so the right request hops to monitor 1
and does not give monitor 0's right half. -/
theorem round_trip_counterexample :
    List.Pairwise (fun a b : Monitor => a.offsetX ≤ b.offsetX ∧ a.offsetX + a.width ≤ b.offsetX)
      tiny ∧
    (∀ m ∈ tiny, 0 < m.width ∧ 0 < m.height) ∧
    ((0 : Int) ≤ winCenterX 0 10 ∧ winCenterX 0 10 < 0 + 10) ∧
    main tiny 0 10 Direction.left = some ⟨0, 0, 5, 10⟩ ∧
    main tiny 0 5 Direction.right = some ⟨10, 0, 5, 10⟩ ∧
    mainTwice tiny Direction.left Direction.right 0 10 ≠
      some ⟨0 + 10 - (10 : Int).tdiv 2, 0, (10 : Int).tdiv 2, 10⟩ := by
  decide

/-- C6, as amended.  When the first monitor has positive width and the window's
membership index is 0, a left request gives the left half of `monitors[0]`, and a
second left request on that rectangle gives the same rectangle.  Sortedness and
non-overlap are not needed for index 0. -/
theorem left_twice_on_leftmost (m0 : Monitor) (rest : List Monitor) (x width : Int)
    (hw : 0 < m0.width) (hi : IsMembership (m0 :: rest) (winCenterX x width) 0) :
    main (m0 :: rest) x width Direction.left =
      some ⟨m0.offsetX, 0, m0.width.tdiv 2, m0.height⟩ ∧
    mainTwice (m0 :: rest) Direction.left Direction.left x width =
      main (m0 :: rest) x width Direction.left := by
  obtain ⟨hc0, hc1⟩ := centre_of_left_half m0 hw
  have h1 := place_left_zero m0 rest x width hi
  refine ⟨h1, ?_⟩
  unfold mainTwice
  rw [h1]
  simp only [Option.some_bind]
  exact place_left_zero m0 rest _ _ (isMembership_head m0 rest _ hc0 hc1)

theorem left_twice_on_leftmost_witness :
    IsMembership dual (winCenterX 100 500) 0 ∧
    main dual 100 500 Direction.left = some ⟨0, 0, 960, 1080⟩ ∧
    mainTwice dual Direction.left Direction.left 100 500 =
      main dual 100 500 Direction.left :=
  ⟨isMembership_dual_0 _ (by decide) (by decide),
    left_twice_on_leftmost ⟨1920, 1080, 0, 0⟩ [⟨1920, 1080, 1920, 0⟩] 100 500 (by decide)
      (isMembership_dual_0 _ (by decide) (by decide))⟩

/-- C6 as stated fails on any monitor other than the leftmost: on `dual` (sorted,
not overlapping) the window `x = 2500, width = 500` has membership index 1, its
left request does not hop (the index after the clamps is still 1) and gives the
left half of monitor 1; that rectangle touches monitor 1's left edge, so the second
left request hops to monitor 0 and gives a different rectangle. -/
theorem left_twice_counterexample :
    List.Pairwise (fun a b : Monitor => a.offsetX ≤ b.offsetX ∧ a.offsetX + a.width ≤ b.offsetX)
      dual ∧
    findCurrent dual (winCenterX 2500 500) = 1 ∧
    (hopAndClamp dual 2500 500 Direction.left).map (fun c => c.2) = some ⟨1, false⟩ ∧
    main dual 2500 500 Direction.left = some ⟨1920, 0, 960, 1080⟩ ∧
    main dual 1920 960 Direction.left = some ⟨960, 0, 960, 1080⟩ ∧
    mainTwice dual Direction.left Direction.left 2500 500 ≠
      main dual 2500 500 Direction.left := by
  decide

/-! ## Monitor registry: lemmas -/

theorem survivor_of (srv : XServer) (output : Nat) (outInfo : OutputInfo) (crtcInfo : CrtcInfo)
    (ho : srv.outputInfo output = some outInfo)
    (hq : srv.crtcInfo outInfo.crtc = some crtcInfo) :
    survivor srv output =
      if outInfo.connection = ConnectionConnected ∧ 1 ≤ outInfo.crtcs.length ∧
          crtcInfo.width ≠ 0 ∧ crtcInfo.height ≠ 0 then
        some ⟨(crtcInfo.width : Int), (crtcInfo.height : Int), crtcInfo.x, crtcInfo.y⟩
      else none := by
  unfold survivor
  rw [ho]
  simp only [hq]

theorem survivor_no_crtc (srv : XServer) (output : Nat) (outInfo : OutputInfo)
    (ho : srv.outputInfo output = some outInfo) (hq : srv.crtcInfo outInfo.crtc = none) :
    survivor srv output = none := by
  unfold survivor
  rw [ho]
  simp only [hq]

theorem collect_eq (srv : XServer) : ∀ (outputs : List Nat) (monitors : List Monitor),
    collect srv outputs monitors = monitors ++ outputs.filterMap (survivor srv)
  | [], monitors => by simp [collect]
  | output :: rest, monitors => by
    unfold collect
    cases ho : srv.outputInfo output with
    | none => simp [survivor, ho, collect_eq srv rest]
    | some outInfo =>
      by_cases hc : outInfo.connection ≠ ConnectionConnected ∨ outInfo.crtcs.length = 0
      · have hs : survivor srv output = none := by
          cases hq : srv.crtcInfo outInfo.crtc with
          | none => exact survivor_no_crtc srv output outInfo ho hq
          | some crtcInfo =>
            rw [survivor_of srv output outInfo crtcInfo ho hq]
            apply if_neg
            rintro ⟨h1, h2, _, _⟩
            rcases hc with h | h
            · exact h h1
            · omega
        simp only [hc, if_true, List.filterMap_cons, hs, collect_eq srv rest]
      · simp only [hc, if_false]
        cases hq : srv.crtcInfo outInfo.crtc with
        | none =>
          simp only [List.filterMap_cons, survivor_no_crtc srv output outInfo ho hq,
            collect_eq srv rest]
        | some crtcInfo =>
          have hc1 : outInfo.connection = ConnectionConnected ∧ 1 ≤ outInfo.crtcs.length := by
            constructor
            · by_contra h
              exact hc (Or.inl h)
            · by_contra h
              exact hc (Or.inr (by omega))
          by_cases hz : crtcInfo.width = 0 ∨ crtcInfo.height = 0
          · have hs : survivor srv output = none := by
              rw [survivor_of srv output outInfo crtcInfo ho hq]
              apply if_neg
              rintro ⟨_, _, h3, h4⟩
              rcases hz with h | h
              · exact h3 h
              · exact h4 h
            simp only [hz, if_true, List.filterMap_cons, hs, collect_eq srv rest]
          · have hs : survivor srv output =
                some ⟨(crtcInfo.width : Int), (crtcInfo.height : Int), crtcInfo.x, crtcInfo.y⟩ := by
              rw [survivor_of srv output outInfo crtcInfo ho hq]
              exact if_pos ⟨hc1.1, hc1.2, fun h => hz (Or.inl h), fun h => hz (Or.inr h)⟩
            simp only [hz, if_false, List.filterMap_cons, hs, collect_eq srv rest,
              List.append_assoc, List.singleton_append]

theorem survivor_pos (srv : XServer) (output : Nat) (m : Monitor)
    (h : survivor srv output = some m) : 0 < m.width ∧ 0 < m.height := by
  unfold survivor at h
  cases ho : srv.outputInfo output with
  | none => simp [ho] at h
  | some outInfo =>
    cases hq : srv.crtcInfo outInfo.crtc with
    | none => simp [ho, hq] at h
    | some crtcInfo =>
      simp only [ho, hq] at h
      split_ifs at h with hc
      cases h
      obtain ⟨_, _, h3, h4⟩ := hc
      constructor
      · show (0 : Int) < (crtcInfo.width : Int)
        omega
      · show (0 : Int) < (crtcInfo.height : Int)
        omega

theorem getMonitors_eq (srv : XServer) (outputs : List Nat) (hinit : srv.randrInit = true)
    (hres : srv.screenResources = some outputs) :
    getMonitors srv = some (sortSlice (outputs.filterMap (survivor srv)) byOffsetX) := by
  simp [getMonitors, hinit, hres, collect_eq]
/-! ## `sort.Slice`: swaps, frames and keys -/

theorem swapAt_length (d : List Monitor) (i j : Nat) : (swapAt d i j).length = d.length := by
  unfold swapAt
  split <;> simp

theorem swapAt_getElem? (d : List Monitor) (i j k : Nat) (hi : i < d.length)
    (hj : j < d.length) :
    (swapAt d i j)[k]? = if k = j then d[i]? else if k = i then d[j]? else d[k]? := by
  unfold swapAt
  rw [List.getElem?_eq_getElem hi, List.getElem?_eq_getElem hj]
  simp only [List.getElem?_set]
  by_cases h1 : k = j
  · subst h1
    simp [hj]
  · by_cases h2 : k = i
    · subst h2
      simp [hi, h1, Ne.symm h1]
    · simp [h1, h2, Ne.symm h1, Ne.symm h2]

theorem keyAt_swapAt (d : List Monitor) (i j k : Nat) (hi : i < d.length)
    (hj : j < d.length) :
    keyAt (swapAt d i j) k =
      if k = j then keyAt d i else if k = i then keyAt d j else keyAt d k := by
  unfold keyAt
  rw [swapAt_getElem? d i j k hi hj]
  split_ifs <;> rfl

theorem cons_set_perm (x : Monitor) : ∀ (t : List Monitor) (j : Nat) (h : j < t.length),
    (t[j] :: t.set j x).Perm (x :: t)
  | [], _, h => absurd h (Nat.not_lt_zero _)
  | y :: t, 0, _ => by
    simp only [List.getElem_cons_zero, List.set_cons_zero]
    exact List.Perm.swap x y t
  | y :: t, j + 1, h => by
    simp only [List.getElem_cons_succ, List.set_cons_succ]
    have hj : j < t.length := by simpa using h
    have ih := cons_set_perm x t j hj
    exact ((List.Perm.swap y t[j] (t.set j x)).trans (ih.cons y)).trans (List.Perm.swap x y t)

theorem swapAt_perm : ∀ (d : List Monitor) (i j : Nat), (swapAt d i j).Perm d
  | [], i, j => by simp [swapAt]
  | x :: t, 0, 0 => by simp [swapAt]
  | x :: t, 0, j + 1 => by
    unfold swapAt
    rcases Nat.lt_or_ge j t.length with h | h
    · simp only [List.getElem?_cons_zero, List.getElem?_cons_succ, List.getElem?_eq_getElem h,
        List.set_cons_zero, List.set_cons_succ]
      exact cons_set_perm x t j h
    · simp [List.getElem?_eq_none h]
  | x :: t, i + 1, 0 => by
    unfold swapAt
    rcases Nat.lt_or_ge i t.length with h | h
    · simp only [List.getElem?_cons_zero, List.getElem?_cons_succ, List.getElem?_eq_getElem h,
        List.set_cons_zero, List.set_cons_succ]
      exact cons_set_perm x t i h
    · simp [List.getElem?_eq_none h]
  | x :: t, i + 1, j + 1 => by
    have ih := swapAt_perm t i j
    unfold swapAt at ih ⊢
    simp only [List.getElem?_cons_succ]
    split
    · rename_i a b ha hb
      simp only [ha, hb] at ih
      simpa using ih
    · exact List.Perm.refl _

theorem framed_refl (a b : Nat) (d : List Monitor) : Framed a b d d :=
  ⟨rfl, fun _ _ => rfl, List.Perm.refl d⟩

theorem framed_trans {a b : Nat} {d1 d2 d3 : List Monitor} (h12 : Framed a b d1 d2)
    (h23 : Framed a b d2 d3) : Framed a b d1 d3 :=
  ⟨h23.1.trans h12.1, fun k hk => (h23.2.1 k hk).trans (h12.2.1 k hk), h23.2.2.trans h12.2.2⟩

theorem framed_mono {a b a' b' : Nat} {d1 d2 : List Monitor} (h : Framed a b d1 d2)
    (ha : a' ≤ a) (hb : b ≤ b') : Framed a' b' d1 d2 :=
  ⟨h.1, fun k hk => h.2.1 k (by omega), h.2.2⟩

theorem swapAt_framed (a b : Nat) (d : List Monitor) (i j : Nat) (hi : a ≤ i ∧ i < b)
    (hj : a ≤ j ∧ j < b) : Framed a b d (swapAt d i j) := by
  refine ⟨swapAt_length d i j, ?_, swapAt_perm d i j⟩
  intro k hk
  by_cases hil : i < d.length
  · by_cases hjl : j < d.length
    · rw [swapAt_getElem? d i j k hil hjl, if_neg (by omega), if_neg (by omega)]
    · unfold swapAt
      rw [List.getElem?_eq_none (show d.length ≤ j by omega)]
      split <;> simp_all
  · unfold swapAt
    rw [List.getElem?_eq_none (show d.length ≤ i by omega)]

theorem framed_keyAt {a b : Nat} {d1 d2 : List Monitor} (h : Framed a b d1 d2) (k : Nat)
    (hk : k < a ∨ b ≤ k) : keyAt d2 k = keyAt d1 k := by
  unfold keyAt
  rw [h.2.1 k hk]

theorem lessAt_eq (d : List Monitor) (i j : Nat) (hi : i < d.length) (hj : j < d.length) :
    lessAt byOffsetX d i j = decide (keyAt d i < keyAt d j) := by
  unfold lessAt keyAt byOffsetX
  rw [List.getElem?_eq_getElem hi, List.getElem?_eq_getElem hj]

theorem lessAt_true_iff (d : List Monitor) (i j : Nat) (hi : i < d.length)
    (hj : j < d.length) : lessAt byOffsetX d i j = true ↔ keyAt d i < keyAt d j := by
  rw [lessAt_eq d i j hi hj]
  simp

theorem lessAt_false_iff (d : List Monitor) (i j : Nat) (hi : i < d.length)
    (hj : j < d.length) : lessAt byOffsetX d i j = false ↔ keyAt d j ≤ keyAt d i := by
  rw [lessAt_eq d i j hi hj]
  simp

/-- Each element of `after` inside the frame is an element of `before` inside the
frame. -/
theorem framed_key_mem {a b : Nat} {d1 d2 : List Monitor} (h : Framed a b d1 d2) (k : Nat)
    (hka : a ≤ k) (hkb : k < b) : ∃ k', a ≤ k' ∧ k' < b ∧ keyAt d2 k = keyAt d1 k' := by
  obtain ⟨hlen, hout, hperm⟩ := h
  by_cases hkl : k < d1.length
  · have hA : d2.take a = d1.take a := by
      apply List.ext_getElem?
      intro n
      rw [List.getElem?_take, List.getElem?_take]
      split
      · exact hout n (Or.inl (by assumption))
      · rfl
    have hZ : d2.drop b = d1.drop b := by
      apply List.ext_getElem?
      intro n
      rw [List.getElem?_drop, List.getElem?_drop]
      exact hout (b + n) (Or.inr (by omega))
    have hsplit : ∀ d : List Monitor,
        d = d.take a ++ ((d.drop a).take (b - a) ++ d.drop b) := by
      intro d
      have h1 : (d.drop a).drop (b - a) = d.drop b := by
        rw [List.drop_drop]
        congr 1
        omega
      rw [← h1, List.take_append_drop, List.take_append_drop]
    have hp : (d2.take a ++ ((d2.drop a).take (b - a) ++ d2.drop b)).Perm
        (d1.take a ++ ((d1.drop a).take (b - a) ++ d1.drop b)) := by
      rw [← hsplit d2, ← hsplit d1]
      exact hperm
    rw [hA, hZ, List.perm_append_left_iff, List.perm_append_right_iff] at hp
    have hk2 : k < d2.length := by omega
    have hin : d2[k] ∈ (d2.drop a).take (b - a) := by
      rw [List.mem_iff_getElem?]
      refine ⟨k - a, ?_⟩
      rw [List.getElem?_take, if_pos (by omega), List.getElem?_drop,
        show a + (k - a) = k by omega, List.getElem?_eq_getElem hk2]
    have hin1 := hp.mem_iff.mp hin
    rw [List.mem_iff_getElem?] at hin1
    obtain ⟨m, hm⟩ := hin1
    rw [List.getElem?_take] at hm
    split at hm
    · rename_i hmlt
      rw [List.getElem?_drop] at hm
      refine ⟨a + m, by omega, by omega, ?_⟩
      unfold keyAt
      rw [hm, List.getElem?_eq_getElem hk2]
    · exact Option.noConfusion hm
  · refine ⟨k, hka, hkb, ?_⟩
    unfold keyAt
    rw [List.getElem?_eq_none (by omega), List.getElem?_eq_none (by omega)]

theorem framed_lower {a b : Nat} {d1 d2 : List Monitor} (h : Framed a b d1 d2) (c : Int)
    (hc : ∀ k, a ≤ k → k < b → c ≤ keyAt d1 k) : ∀ k, a ≤ k → k < b → c ≤ keyAt d2 k := by
  intro k hka hkb
  obtain ⟨k', h1, h2, h3⟩ := framed_key_mem h k hka hkb
  rw [h3]
  exact hc k' h1 h2

theorem framed_upper {a b : Nat} {d1 d2 : List Monitor} (h : Framed a b d1 d2) (c : Int)
    (hc : ∀ k, a ≤ k → k < b → keyAt d1 k ≤ c) : ∀ k, a ≤ k → k < b → keyAt d2 k ≤ c := by
  intro k hka hkb
  obtain ⟨k', h1, h2, h3⟩ := framed_key_mem h k hka hkb
  rw [h3]
  exact hc k' h1 h2

theorem framed_lower_strict {a b : Nat} {d1 d2 : List Monitor} (h : Framed a b d1 d2) (c : Int)
    (hc : ∀ k, a ≤ k → k < b → c < keyAt d1 k) : ∀ k, a ≤ k → k < b → c < keyAt d2 k := by
  intro k hka hkb
  obtain ⟨k', h1, h2, h3⟩ := framed_key_mem h k hka hkb
  rw [h3]
  exact hc k' h1 h2

theorem framed_upper_strict {a b : Nat} {d1 d2 : List Monitor} (h : Framed a b d1 d2) (c : Int)
    (hc : ∀ k, a ≤ k → k < b → keyAt d1 k < c) : ∀ k, a ≤ k → k < b → keyAt d2 k < c := by
  intro k hka hkb
  obtain ⟨k', h1, h2, h3⟩ := framed_key_mem h k hka hkb
  rw [h3]
  exact hc k' h1 h2

theorem framed_eq_key {a b : Nat} {d1 d2 : List Monitor} (h : Framed a b d1 d2) (c : Int)
    (hc : ∀ k, a ≤ k → k < b → keyAt d1 k = c) : ∀ k, a ≤ k → k < b → keyAt d2 k = c := by
  intro k hka hkb
  obtain ⟨k', h1, h2, h3⟩ := framed_key_mem h k hka hkb
  rw [h3]
  exact hc k' h1 h2

/-- A guard at `a` survives changes inside `[a, b)`. -/
theorem guard_framed {a b : Nat} {d1 d2 : List Monitor} (h : Framed a b d1 d2)
    (hg : Guard a b d1) : Guard a b d2 := by
  rcases hg with h0 | hg
  · exact Or.inl h0
  · by_cases h0 : a = 0
    · exact Or.inl h0
    · right
      rw [framed_keyAt h (a - 1) (Or.inl (by omega))]
      exact framed_lower h _ hg

theorem guard_mono {a b b' : Nat} {d : List Monitor} (hg : Guard a b d) (hb : b' ≤ b) :
    Guard a b' d := by
  rcases hg with h0 | hg
  · exact Or.inl h0
  · exact Or.inr (fun k h1 h2 => hg k h1 (by omega))

theorem keyAt_swapAt_left (d : List Monitor) (i j : Nat) (hi : i < d.length)
    (hj : j < d.length) : keyAt (swapAt d i j) i = keyAt d j := by
  rw [keyAt_swapAt d i j i hi hj]
  by_cases h : i = j
  · rw [if_pos h, h]
  · rw [if_neg h, if_pos rfl]

theorem keyAt_swapAt_right (d : List Monitor) (i j : Nat) (hi : i < d.length)
    (hj : j < d.length) : keyAt (swapAt d i j) j = keyAt d i := by
  rw [keyAt_swapAt d i j j hi hj, if_pos rfl]

theorem keyAt_swapAt_other (d : List Monitor) (i j k : Nat) (hi : i < d.length)
    (hj : j < d.length) (hki : k ≠ i) (hkj : k ≠ j) : keyAt (swapAt d i j) k = keyAt d k := by
  rw [keyAt_swapAt d i j k hi hj, if_neg hkj, if_neg hki]

/-! ## `insertionSort_func` on a range -/

/-- The inner loop of the insertion sort, entered with the moving element at `j`:
the prefix `[a, j)` and the block `(j, J]` are sorted, the prefix is below the
block, and the moving element is below the block. -/
theorem insertionShift_spec (a J : Nat) : ∀ (j : Nat) (d : List Monitor),
    a ≤ j → j ≤ J → J < d.length → SortedOn a j d → SortedOn (j + 1) (J + 1) d →
    (∀ p q, a ≤ p → p < j → j < q → q ≤ J → keyAt d p ≤ keyAt d q) →
    (∀ q, j < q → q ≤ J → keyAt d j < keyAt d q) →
    Framed a (J + 1) d (insertionShift byOffsetX a j d) ∧
      SortedOn a (J + 1) (insertionShift byOffsetX a j d)
  | 0, d, _, _, _, _, hS2, _, hx => by
    refine ⟨framed_refl _ _ d, ?_⟩
    show SortedOn a (J + 1) d
    intro i jj h1 h2 h3
    by_cases hi0 : i = 0
    · by_cases hij : i = jj
      · rw [hij]
      · have := hx jj (by omega) (by omega)
        rw [hi0]
        omega
    · exact hS2 i jj (by omega) h2 h3
  | j + 1, d, haj, hjJ, hJ, hS1, hS2, hcross, hx => by
    have hjl : j < d.length := by omega
    have hj1l : j + 1 < d.length := by omega
    unfold insertionShift
    by_cases hc : j + 1 > a ∧ lessAt byOffsetX d (j + 1) j = true
    · rw [if_pos hc]
      have hlt : keyAt d (j + 1) < keyAt d j := (lessAt_true_iff d (j + 1) j hj1l hjl).mp hc.2
      have hl1 : J < (swapAt d (j + 1) j).length := by rw [swapAt_length]; exact hJ
      have ih := insertionShift_spec a J j (swapAt d (j + 1) j) (by omega) (by omega) hl1 ?_ ?_ ?_ ?_
      · exact ⟨framed_trans (swapAt_framed a (J + 1) d (j + 1) j (by omega) (by omega)) ih.1,
          ih.2⟩
      · intro i jj h1 h2 h3
        rw [keyAt_swapAt_other d _ _ i hj1l hjl (by omega) (by omega),
          keyAt_swapAt_other d _ _ jj hj1l hjl (by omega) (by omega)]
        exact hS1 i jj h1 h2 (by omega)
      · intro i jj h1 h2 h3
        by_cases hi : i = j + 1
        · by_cases hjj : jj = j + 1
          · rw [hi, hjj]
          · rw [hi, keyAt_swapAt_left d _ _ hj1l hjl,
              keyAt_swapAt_other d _ _ jj hj1l hjl (by omega) (by omega)]
            exact hcross j jj (by omega) (by omega) (by omega) (by omega)
        · rw [keyAt_swapAt_other d _ _ i hj1l hjl (by omega) (by omega),
            keyAt_swapAt_other d _ _ jj hj1l hjl (by omega) (by omega)]
          exact hS2 i jj (by omega) h2 h3
      · intro p q h1 h2 h3 h4
        rw [keyAt_swapAt_other d _ _ p hj1l hjl (by omega) (by omega)]
        by_cases hq : q = j + 1
        · rw [hq, keyAt_swapAt_left d _ _ hj1l hjl]
          exact hS1 p j h1 (by omega) (by omega)
        · rw [keyAt_swapAt_other d _ _ q hj1l hjl (by omega) (by omega)]
          exact hcross p q h1 (by omega) (by omega) h4
      · intro q h1 h2
        rw [keyAt_swapAt_right d _ _ hj1l hjl]
        by_cases hq : q = j + 1
        · rw [hq, keyAt_swapAt_left d _ _ hj1l hjl]
          exact hlt
        · rw [keyAt_swapAt_other d _ _ q hj1l hjl (by omega) (by omega)]
          exact hx q (by omega) h2
    · rw [if_neg hc]
      refine ⟨framed_refl _ _ d, ?_⟩
      have hle : a = j + 1 ∨ keyAt d j ≤ keyAt d (j + 1) := by
        by_cases ha : a = j + 1
        · exact Or.inl ha
        · right
          have hnl : ¬ lessAt byOffsetX d (j + 1) j = true := fun h => hc ⟨by omega, h⟩
          rw [lessAt_true_iff d (j + 1) j hj1l hjl] at hnl
          omega
      intro i jj h1 h2 h3
      by_cases hjj : jj ≤ j
      · exact hS1 i jj h1 h2 (by omega)
      · by_cases hi : j + 2 ≤ i
        · exact hS2 i jj hi h2 h3
        · by_cases hi1 : i = j + 1
          · by_cases hjj1 : jj = j + 1
            · rw [hi1, hjj1]
            · have := hx jj (by omega) (by omega)
              rw [hi1]
              omega
          · by_cases hjj1 : jj = j + 1
            · rcases hle with ha | hle
              · omega
              · have := hS1 i j h1 (by omega) (by omega)
                rw [hjj1]
                omega
            · exact hcross i jj h1 (by omega) (by omega) (by omega)

theorem insertionLoop_spec (a b : Nat) : ∀ (n i : Nat) (d : List Monitor),
    a < i → i + n = b → b ≤ d.length → SortedOn a i d →
    Framed a b d (insertionLoop byOffsetX a n i d) ∧
      SortedOn a b (insertionLoop byOffsetX a n i d)
  | 0, i, d, _, hb, _, hS => by
    unfold insertionLoop
    have : i = b := by omega
    subst this
    exact ⟨framed_refl _ _ d, hS⟩
  | n + 1, i, d, hai, hb, hbl, hS => by
    unfold insertionLoop
    have h1 := insertionShift_spec a i i d (by omega) (Nat.le_refl i) (by omega) hS
      (fun p q h1 h2 h3 => by omega) (fun p q _ _ h3 h4 => by omega) (fun q h1 h2 => by omega)
    have h2 := insertionLoop_spec a b n (i + 1) (insertionShift byOffsetX a i d) (by omega)
      (by omega) (by rw [h1.1.1]; exact hbl) h1.2
    exact ⟨framed_trans (framed_mono h1.1 (Nat.le_refl a) (by omega)) h2.1, h2.2⟩

theorem insertionSort_spec (d : List Monitor) (a b : Nat) (hb : b ≤ d.length) :
    Framed a b d (insertionSort_func byOffsetX d a b) ∧
      SortedOn a b (insertionSort_func byOffsetX d a b) := by
  unfold insertionSort_func
  by_cases hab : a + 1 ≤ b
  · exact insertionLoop_spec a b (b - (a + 1)) (a + 1) d (by omega) (by omega) hb
      (fun i j h1 h2 h3 => by
        have : i = j := by omega
        rw [this])
  · have h0 : b - (a + 1) = 0 := by omega
    rw [h0]
    unfold insertionLoop
    exact ⟨framed_refl _ _ d, fun i j h1 h2 h3 => by omega⟩

/-! ## `partition_func` -/

theorem scanLess_spec (d : List Monitor) (a : Nat) (ha : a < d.length) :
    ∀ (n i : Nat), i + n ≤ d.length →
      i ≤ scanLess byOffsetX d a n i ∧ scanLess byOffsetX d a n i ≤ i + n ∧
      (∀ k, i ≤ k → k < scanLess byOffsetX d a n i → keyAt d k < keyAt d a) ∧
      (scanLess byOffsetX d a n i < i + n →
        keyAt d a ≤ keyAt d (scanLess byOffsetX d a n i))
  | 0, i, _ => by
    unfold scanLess
    exact ⟨Nat.le_refl i, Nat.le_refl _, fun k h1 h2 => by omega, fun h => by omega⟩
  | n + 1, i, hl => by
    unfold scanLess
    by_cases hc : lessAt byOffsetX d i a = true
    · rw [if_pos hc]
      obtain ⟨h1, h2, h3, h4⟩ := scanLess_spec d a ha n (i + 1) (by omega)
      refine ⟨by omega, by omega, ?_, fun h => h4 (by omega)⟩
      intro k hk1 hk2
      by_cases hki : k = i
      · rw [hki]
        exact (lessAt_true_iff d i a (by omega) ha).mp hc
      · exact h3 k (by omega) hk2
    · rw [if_neg hc]
      refine ⟨Nat.le_refl i, by omega, fun k h1 h2 => by omega, fun _ => ?_⟩
      rw [lessAt_true_iff d i a (by omega) ha] at hc
      omega

theorem scanNotLess_spec (d : List Monitor) (a : Nat) (ha : a < d.length) :
    ∀ (n j : Nat), n ≤ j → j < d.length →
      scanNotLess byOffsetX d a n j ≤ j ∧ j ≤ scanNotLess byOffsetX d a n j + n ∧
      (∀ k, scanNotLess byOffsetX d a n j < k → k ≤ j → keyAt d a ≤ keyAt d k) ∧
      (j < scanNotLess byOffsetX d a n j + n →
        keyAt d (scanNotLess byOffsetX d a n j) < keyAt d a)
  | 0, j, _, _ => by
    unfold scanNotLess
    exact ⟨Nat.le_refl j, Nat.le_refl _, fun k h1 h2 => by omega, fun h => by omega⟩
  | n + 1, j, hn, hl => by
    unfold scanNotLess
    by_cases hc : lessAt byOffsetX d j a = false
    · rw [if_pos hc]
      obtain ⟨h1, h2, h3, h4⟩ := scanNotLess_spec d a ha n (j - 1) (by omega) (by omega)
      refine ⟨by omega, by omega, ?_, fun h => h4 (by omega)⟩
      intro k hk1 hk2
      by_cases hkj : k = j
      · rw [hkj]
        exact (lessAt_false_iff d j a hl ha).mp hc
      · exact h3 k hk1 (by omega)
    · rw [if_neg hc]
      refine ⟨Nat.le_refl j, by omega, fun k h1 h2 => by omega, fun _ => ?_⟩
      rw [lessAt_false_iff d j a hl ha] at hc
      omega

theorem partitionLoop_spec (a b : Nat) : ∀ (fuel i j : Nat) (d : List Monitor),
    a + 1 ≤ i → j + 1 ≤ b → i ≤ j + 1 → j + 1 - i < fuel → b ≤ d.length →
    (∀ k, a + 1 ≤ k → k < i → keyAt d k < keyAt d a) →
    (∀ k, j < k → k < b → keyAt d a ≤ keyAt d k) →
    Framed (a + 1) b d (partitionLoop byOffsetX a fuel i j d).1 ∧
      a ≤ (partitionLoop byOffsetX a fuel i j d).2 ∧
      (partitionLoop byOffsetX a fuel i j d).2 < b ∧
      (∀ k, a + 1 ≤ k → k ≤ (partitionLoop byOffsetX a fuel i j d).2 →
        keyAt (partitionLoop byOffsetX a fuel i j d).1 k < keyAt d a) ∧
      (∀ k, (partitionLoop byOffsetX a fuel i j d).2 < k → k < b →
        keyAt d a ≤ keyAt (partitionLoop byOffsetX a fuel i j d).1 k)
  | 0, i, j, d, _, _, _, hf, _, _, _ => by omega
  | fuel + 1, i, j, d, hi, hj, hij, hf, hb, hlo, hhi => by
    have ha : a < d.length := by omega
    obtain ⟨s1, s2, s3, s4⟩ := scanLess_spec d a ha (j + 1 - i) i (by omega)
    obtain ⟨t1, t2, t3, t4⟩ := scanNotLess_spec d a ha
      (j + 1 - scanLess byOffsetX d a (j + 1 - i) i) j (by omega) (by omega)
    unfold partitionLoop
    simp only []
    generalize scanLess byOffsetX d a (j + 1 - i) i = i1 at *
    generalize scanNotLess byOffsetX d a (j + 1 - i1) j = j1 at *
    by_cases hc : i1 > j1
    · rw [if_pos hc]
      refine ⟨framed_refl _ _ d, by omega, by omega, ?_, ?_⟩
      · intro k hk1 hk2
        by_cases hki : k < i
        · exact hlo k hk1 hki
        · exact s3 k (by omega) (by omega)
      · intro k hk1 hk2
        by_cases hkj : j < k
        · exact hhi k hkj hk2
        · exact t3 k hk1 (by omega)
    · rw [if_neg hc]
      have hki1 : keyAt d a ≤ keyAt d i1 := s4 (by omega)
      have hkj1 : keyAt d j1 < keyAt d a := t4 (by omega)
      have hne : i1 ≠ j1 := by
        intro h
        rw [h] at hki1
        omega
      have hi1l : i1 < d.length := by omega
      have hj1l : j1 < d.length := by omega
      have hka : keyAt (swapAt d i1 j1) a = keyAt d a :=
        keyAt_swapAt_other d i1 j1 a hi1l hj1l (by omega) (by omega)
      have ih := partitionLoop_spec a b fuel (i1 + 1) (j1 - 1) (swapAt d i1 j1) (by omega)
        (by omega) (by omega) (by omega) (by rw [swapAt_length]; exact hb) ?_ ?_
      · rw [hka] at ih
        obtain ⟨f1, f2, f3, f4, f5⟩ := ih
        exact ⟨framed_trans (swapAt_framed (a + 1) b d i1 j1 (by omega) (by omega)) f1,
          f2, f3, f4, f5⟩
      · intro k hk1 hk2
        rw [hka]
        by_cases hk : k = i1
        · rw [hk, keyAt_swapAt_left d i1 j1 hi1l hj1l]
          exact hkj1
        · rw [keyAt_swapAt_other d i1 j1 k hi1l hj1l hk (by omega)]
          by_cases hki : k < i
          · exact hlo k hk1 hki
          · exact s3 k (by omega) (by omega)
      · intro k hk1 hk2
        rw [hka]
        by_cases hk : k = j1
        · rw [hk, keyAt_swapAt_right d i1 j1 hi1l hj1l]
          exact hki1
        · rw [keyAt_swapAt_other d i1 j1 k hi1l hj1l (by omega) hk]
          by_cases hkj : j < k
          · exact hhi k hkj hk2
          · exact t3 k (by omega) (by omega)

/-- The last step of `partition_func`: the pivot is swapped from `a` to `j`. -/
theorem partition_finish (a b j : Nat) (d : List Monitor) (haj : a ≤ j) (hjb : j < b)
    (hb : b ≤ d.length) (hlo : ∀ k, a + 1 ≤ k → k ≤ j → keyAt d k < keyAt d a)
    (hhi : ∀ k, j < k → k < b → keyAt d a ≤ keyAt d k) :
    Framed a b d (swapAt d j a) ∧ keyAt (swapAt d j a) j = keyAt d a ∧
      (∀ k, a ≤ k → k < j → keyAt (swapAt d j a) k < keyAt d a) ∧
      (∀ k, j < k → k < b → keyAt d a ≤ keyAt (swapAt d j a) k) := by
  have hjl : j < d.length := by omega
  have hal : a < d.length := by omega
  refine ⟨swapAt_framed a b d j a (by omega) (by omega), keyAt_swapAt_left d j a hjl hal, ?_, ?_⟩
  · intro k hk1 hk2
    by_cases hk : k = a
    · rw [hk, keyAt_swapAt_right d j a hjl hal]
      exact hlo j (by omega) (Nat.le_refl j)
    · rw [keyAt_swapAt_other d j a k hjl hal (by omega) hk]
      exact hlo k (by omega) (by omega)
  · intro k hk1 hk2
    rw [keyAt_swapAt_other d j a k hjl hal (by omega) (by omega)]
    exact hhi k hk1 hk2

theorem partition_spec (d : List Monitor) (a b pivot : Nat) (hb : b ≤ d.length)
    (hpa : a ≤ pivot) (hpb : pivot < b) :
    Framed a b d (partition_func byOffsetX d a b pivot).1 ∧
      a ≤ (partition_func byOffsetX d a b pivot).2.1 ∧
      (partition_func byOffsetX d a b pivot).2.1 < b ∧
      (∀ k, a ≤ k → k < (partition_func byOffsetX d a b pivot).2.1 →
        keyAt (partition_func byOffsetX d a b pivot).1 k <
          keyAt (partition_func byOffsetX d a b pivot).1
            (partition_func byOffsetX d a b pivot).2.1) ∧
      (∀ k, (partition_func byOffsetX d a b pivot).2.1 < k → k < b →
        keyAt (partition_func byOffsetX d a b pivot).1
            (partition_func byOffsetX d a b pivot).2.1 ≤
          keyAt (partition_func byOffsetX d a b pivot).1 k) := by
  have hl0 : (swapAt d a pivot).length = d.length := swapAt_length d a pivot
  have hf0 : Framed a b d (swapAt d a pivot) :=
    swapAt_framed a b d a pivot (by omega) (by omega)
  have ha0 : a < (swapAt d a pivot).length := by omega
  obtain ⟨s1, s2, s3, s4⟩ := scanLess_spec (swapAt d a pivot) a ha0 (b - 1 + 1 - (a + 1))
    (a + 1) (by omega)
  obtain ⟨t1, t2, t3, t4⟩ := scanNotLess_spec (swapAt d a pivot) a ha0
    (b - 1 + 1 - scanLess byOffsetX (swapAt d a pivot) a (b - 1 + 1 - (a + 1)) (a + 1))
    (b - 1) (by omega) (by omega)
  unfold partition_func
  simp only []
  generalize scanLess byOffsetX (swapAt d a pivot) a (b - 1 + 1 - (a + 1)) (a + 1) = i1 at *
  generalize scanNotLess byOffsetX (swapAt d a pivot) a (b - 1 + 1 - i1) (b - 1) = j1 at *
  generalize hd0 : swapAt d a pivot = d0 at *
  by_cases hc : i1 > j1
  · rw [if_pos hc]
    simp only []
    obtain ⟨f1, f2, f3, f4⟩ := partition_finish a b j1 d0 (by omega) (by omega) (by omega)
      (fun k h1 h2 => s3 k h1 (by omega)) (fun k h1 h2 => t3 k h1 (by omega))
    refine ⟨framed_trans hf0 f1, by omega, by omega, ?_, ?_⟩
    · intro k h1 h2
      rw [f2]
      exact f3 k h1 h2
    · intro k h1 h2
      rw [f2]
      exact f4 k h1 h2
  · rw [if_neg hc]
    have hki1 : keyAt d0 a ≤ keyAt d0 i1 := s4 (by omega)
    have hkj1 : keyAt d0 j1 < keyAt d0 a := t4 (by omega)
    have hne : i1 ≠ j1 := by
      intro h
      rw [h] at hki1
      omega
    have hi1l : i1 < d0.length := by omega
    have hj1l : j1 < d0.length := by omega
    have hka : keyAt (swapAt d0 i1 j1) a = keyAt d0 a :=
      keyAt_swapAt_other d0 i1 j1 a hi1l hj1l (by omega) (by omega)
    have hloop := partitionLoop_spec a b (b - a) (i1 + 1) (j1 - 1) (swapAt d0 i1 j1) (by omega)
      (by omega) (by omega) (by omega) (by rw [swapAt_length]; omega) ?_ ?_
    · rw [hka] at hloop
      obtain ⟨g1, g2, g3, g4, g5⟩ := hloop
      generalize partitionLoop byOffsetX a (b - a) (i1 + 1) (j1 - 1) (swapAt d0 i1 j1) = r at *
      have hra : keyAt r.1 a = keyAt d0 a := by
        rw [framed_keyAt g1 a (Or.inl (by omega))]
        exact hka
      have hrl : r.1.length = d0.length := by rw [g1.1, swapAt_length]
      obtain ⟨f1, f2, f3, f4⟩ := partition_finish a b r.2 r.1 g2 g3 (by omega)
        (fun k h1 h2 => by rw [hra]; exact g4 k h1 h2)
        (fun k h1 h2 => by rw [hra]; exact g5 k h1 h2)
      refine ⟨?_, g2, g3, ?_, ?_⟩
      · exact framed_trans hf0 (framed_trans
          (swapAt_framed a b d0 i1 j1 (by omega) (by omega))
          (framed_trans (framed_mono g1 (by omega) (Nat.le_refl b)) f1))
      · intro k h1 h2
        rw [f2]
        exact f3 k h1 h2
      · intro k h1 h2
        rw [f2]
        exact f4 k h1 h2
    · intro k hk1 hk2
      rw [hka]
      by_cases hk : k = i1
      · rw [hk, keyAt_swapAt_left d0 i1 j1 hi1l hj1l]
        exact hkj1
      · rw [keyAt_swapAt_other d0 i1 j1 k hi1l hj1l hk (by omega)]
        exact s3 k (by omega) (by omega)
    · intro k hk1 hk2
      rw [hka]
      by_cases hk : k = j1
      · rw [hk, keyAt_swapAt_right d0 i1 j1 hi1l hj1l]
        exact hki1
      · rw [keyAt_swapAt_other d0 i1 j1 k hi1l hj1l (by omega) hk]
        exact t3 k (by omega) (by omega)

/-! ## `partitionEqual_func` -/

theorem scanNotGreater_spec (d : List Monitor) (a : Nat) (ha : a < d.length) :
    ∀ (n i : Nat), i + n ≤ d.length →
      i ≤ scanNotGreater byOffsetX d a n i ∧ scanNotGreater byOffsetX d a n i ≤ i + n ∧
      (∀ k, i ≤ k → k < scanNotGreater byOffsetX d a n i → keyAt d k ≤ keyAt d a) ∧
      (scanNotGreater byOffsetX d a n i < i + n →
        keyAt d a < keyAt d (scanNotGreater byOffsetX d a n i))
  | 0, i, _ => by
    unfold scanNotGreater
    exact ⟨Nat.le_refl i, Nat.le_refl _, fun k h1 h2 => by omega, fun h => by omega⟩
  | n + 1, i, hl => by
    unfold scanNotGreater
    by_cases hc : lessAt byOffsetX d a i = false
    · rw [if_pos hc]
      obtain ⟨h1, h2, h3, h4⟩ := scanNotGreater_spec d a ha n (i + 1) (by omega)
      refine ⟨by omega, by omega, ?_, fun h => h4 (by omega)⟩
      intro k hk1 hk2
      by_cases hki : k = i
      · rw [hki]
        exact (lessAt_false_iff d a i ha (by omega)).mp hc
      · exact h3 k (by omega) hk2
    · rw [if_neg hc]
      refine ⟨Nat.le_refl i, by omega, fun k h1 h2 => by omega, fun _ => ?_⟩
      rw [lessAt_false_iff d a i ha (by omega)] at hc
      omega

theorem scanGreater_spec (d : List Monitor) (a : Nat) (ha : a < d.length) :
    ∀ (n j : Nat), n ≤ j → j < d.length →
      scanGreater byOffsetX d a n j ≤ j ∧ j ≤ scanGreater byOffsetX d a n j + n ∧
      (∀ k, scanGreater byOffsetX d a n j < k → k ≤ j → keyAt d a < keyAt d k) ∧
      (j < scanGreater byOffsetX d a n j + n →
        keyAt d (scanGreater byOffsetX d a n j) ≤ keyAt d a)
  | 0, j, _, _ => by
    unfold scanGreater
    exact ⟨Nat.le_refl j, Nat.le_refl _, fun k h1 h2 => by omega, fun h => by omega⟩
  | n + 1, j, hn, hl => by
    unfold scanGreater
    by_cases hc : lessAt byOffsetX d a j = true
    · rw [if_pos hc]
      obtain ⟨h1, h2, h3, h4⟩ := scanGreater_spec d a ha n (j - 1) (by omega) (by omega)
      refine ⟨by omega, by omega, ?_, fun h => h4 (by omega)⟩
      intro k hk1 hk2
      by_cases hkj : k = j
      · rw [hkj]
        exact (lessAt_true_iff d a j ha hl).mp hc
      · exact h3 k hk1 (by omega)
    · rw [if_neg hc]
      refine ⟨Nat.le_refl j, by omega, fun k h1 h2 => by omega, fun _ => ?_⟩
      rw [lessAt_true_iff d a j ha hl] at hc
      omega

theorem partitionEqualLoop_spec (a b : Nat) : ∀ (fuel i j : Nat) (d : List Monitor),
    a + 1 ≤ i → j + 1 ≤ b → i ≤ j + 1 → j + 1 - i < fuel → b ≤ d.length →
    (∀ k, a + 1 ≤ k → k < i → keyAt d k ≤ keyAt d a) →
    (∀ k, j < k → k < b → keyAt d a < keyAt d k) →
    Framed (a + 1) b d (partitionEqualLoop byOffsetX a fuel i j d).1 ∧
      a + 1 ≤ (partitionEqualLoop byOffsetX a fuel i j d).2 ∧
      (partitionEqualLoop byOffsetX a fuel i j d).2 ≤ b ∧
      (∀ k, a + 1 ≤ k → k < (partitionEqualLoop byOffsetX a fuel i j d).2 →
        keyAt (partitionEqualLoop byOffsetX a fuel i j d).1 k ≤ keyAt d a) ∧
      (∀ k, (partitionEqualLoop byOffsetX a fuel i j d).2 ≤ k → k < b →
        keyAt d a < keyAt (partitionEqualLoop byOffsetX a fuel i j d).1 k)
  | 0, i, j, d, _, _, _, hf, _, _, _ => by omega
  | fuel + 1, i, j, d, hi, hj, hij, hf, hb, hlo, hhi => by
    have ha : a < d.length := by omega
    obtain ⟨s1, s2, s3, s4⟩ := scanNotGreater_spec d a ha (j + 1 - i) i (by omega)
    obtain ⟨t1, t2, t3, t4⟩ := scanGreater_spec d a ha
      (j + 1 - scanNotGreater byOffsetX d a (j + 1 - i) i) j (by omega) (by omega)
    unfold partitionEqualLoop
    simp only []
    generalize scanNotGreater byOffsetX d a (j + 1 - i) i = i1 at *
    generalize scanGreater byOffsetX d a (j + 1 - i1) j = j1 at *
    by_cases hc : i1 > j1
    · rw [if_pos hc]
      refine ⟨framed_refl _ _ d, by omega, by omega, ?_, ?_⟩
      · intro k hk1 hk2
        by_cases hki : k < i
        · exact hlo k hk1 hki
        · exact s3 k (by omega) (by omega)
      · intro k hk1 hk2
        by_cases hkj : j < k
        · exact hhi k hkj hk2
        · exact t3 k (by omega) (by omega)
    · rw [if_neg hc]
      have hki1 : keyAt d a < keyAt d i1 := s4 (by omega)
      have hkj1 : keyAt d j1 ≤ keyAt d a := t4 (by omega)
      have hne : i1 ≠ j1 := by
        intro h
        rw [h] at hki1
        omega
      have hi1l : i1 < d.length := by omega
      have hj1l : j1 < d.length := by omega
      have hka : keyAt (swapAt d i1 j1) a = keyAt d a :=
        keyAt_swapAt_other d i1 j1 a hi1l hj1l (by omega) (by omega)
      have ih := partitionEqualLoop_spec a b fuel (i1 + 1) (j1 - 1) (swapAt d i1 j1) (by omega)
        (by omega) (by omega) (by omega) (by rw [swapAt_length]; exact hb) ?_ ?_
      · rw [hka] at ih
        obtain ⟨f1, f2, f3, f4, f5⟩ := ih
        exact ⟨framed_trans (swapAt_framed (a + 1) b d i1 j1 (by omega) (by omega)) f1,
          f2, f3, f4, f5⟩
      · intro k hk1 hk2
        rw [hka]
        by_cases hk : k = i1
        · rw [hk, keyAt_swapAt_left d i1 j1 hi1l hj1l]
          exact hkj1
        · rw [keyAt_swapAt_other d i1 j1 k hi1l hj1l hk (by omega)]
          by_cases hki : k < i
          · exact hlo k hk1 hki
          · exact s3 k (by omega) (by omega)
      · intro k hk1 hk2
        rw [hka]
        by_cases hk : k = j1
        · rw [hk, keyAt_swapAt_right d i1 j1 hi1l hj1l]
          exact hki1
        · rw [keyAt_swapAt_other d i1 j1 k hi1l hj1l (by omega) hk]
          by_cases hkj : j < k
          · exact hhi k hkj hk2
          · exact t3 k (by omega) (by omega)

theorem partitionEqual_spec (d : List Monitor) (a b pivot : Nat) (hb : b ≤ d.length)
    (hpa : a ≤ pivot) (hpb : pivot < b) :
    Framed a b d (partitionEqual_func byOffsetX d a b pivot).1 ∧
      a + 1 ≤ (partitionEqual_func byOffsetX d a b pivot).2 ∧
      (partitionEqual_func byOffsetX d a b pivot).2 ≤ b ∧
      (∀ k, a ≤ k → k < (partitionEqual_func byOffsetX d a b pivot).2 →
        keyAt (partitionEqual_func byOffsetX d a b pivot).1 k ≤ keyAt d pivot) ∧
      (∀ k, (partitionEqual_func byOffsetX d a b pivot).2 ≤ k → k < b →
        keyAt d pivot < keyAt (partitionEqual_func byOffsetX d a b pivot).1 k) := by
  have hal : a < d.length := by omega
  have hpl : pivot < d.length := by omega
  have hka : keyAt (swapAt d a pivot) a = keyAt d pivot := keyAt_swapAt_left d a pivot hal hpl
  have h := partitionEqualLoop_spec a b (b - a + 1) (a + 1) (b - 1) (swapAt d a pivot)
    (Nat.le_refl _) (by omega) (by omega) (by omega) (by rw [swapAt_length]; exact hb)
    (fun k h1 h2 => by omega) (fun k h1 h2 => by omega)
  rw [hka] at h
  obtain ⟨f1, f2, f3, f4, f5⟩ := h
  unfold partitionEqual_func
  refine ⟨framed_trans (swapAt_framed a b d a pivot (by omega) (by omega))
    (framed_mono f1 (by omega) (Nat.le_refl b)), f2, f3, ?_, f5⟩
  intro k hk1 hk2
  by_cases hk : k = a
  · rw [hk, framed_keyAt f1 a (Or.inl (by omega)), hka]
  · exact f4 k (by omega) hk2

/-! ## `heapSort_func` -/

/-- The function `siftDown_func` restores heap order below `lo` when only the
node `root` may be smaller than its children. -/
theorem siftDown_spec (first lo hi : Nat) : ∀ (fuel root : Nat) (d : List Monitor),
    lo ≤ root → hi ≤ root + fuel → first + hi ≤ d.length →
    (∀ p c, lo ≤ p → p ≠ root → (c = 2 * p + 1 ∨ c = 2 * p + 2) → c < hi →
      keyAt d (first + c) ≤ keyAt d (first + p)) →
    (∀ q c, lo ≤ q → (root = 2 * q + 1 ∨ root = 2 * q + 2) →
      (c = 2 * root + 1 ∨ c = 2 * root + 2) → c < hi →
      keyAt d (first + c) ≤ keyAt d (first + q)) →
    Framed (first + root) (first + hi) d (siftDown_func byOffsetX hi first fuel root d) ∧
      HeapOn first lo hi (siftDown_func byOffsetX hi first fuel root d)
  | 0, root, d, _, hf, _, h1, _ => by
    unfold siftDown_func
    refine ⟨framed_refl _ _ d, ?_⟩
    intro p c hp hc hch
    exact h1 p c hp (by omega) hc hch
  | fuel + 1, root, d, hlo, hf, hl, h1, h2 => by
    unfold siftDown_func
    simp only []
    by_cases hc0 : 2 * root + 1 ≥ hi
    · rw [if_pos hc0]
      refine ⟨framed_refl _ _ d, ?_⟩
      intro p c hp hc hch
      exact h1 p c hp (by omega) hc hch
    · rw [if_neg hc0]
      have hchild : ∃ c1, (c1 = 2 * root + 1 ∨ c1 = 2 * root + 2) ∧ c1 < hi ∧
          (if 2 * root + 1 + 1 < hi ∧
              lessAt byOffsetX d (first + (2 * root + 1)) (first + (2 * root + 1) + 1) = true
            then 2 * root + 1 + 1 else 2 * root + 1) = c1 ∧
          ∀ c, (c = 2 * root + 1 ∨ c = 2 * root + 2) → c < hi →
            keyAt d (first + c) ≤ keyAt d (first + c1) := by
        by_cases hcc : 2 * root + 1 + 1 < hi ∧
            lessAt byOffsetX d (first + (2 * root + 1)) (first + (2 * root + 1) + 1) = true
        · refine ⟨2 * root + 2, Or.inr rfl, by omega, by rw [if_pos hcc], ?_⟩
          have hlt := (lessAt_true_iff d _ _ (by omega) (by omega)).mp hcc.2
          intro c hc hch
          rcases hc with hc | hc
          · rw [hc]
            have e : first + (2 * root + 1) + 1 = first + (2 * root + 2) := by omega
            rw [e] at hlt
            omega
          · rw [hc]
        · refine ⟨2 * root + 1, Or.inl rfl, by omega, by rw [if_neg hcc], ?_⟩
          intro c hc hch
          rcases hc with hc | hc
          · rw [hc]
          · rw [hc]
            have hnl : ¬ lessAt byOffsetX d (first + (2 * root + 1))
                (first + (2 * root + 1) + 1) = true := fun h => hcc ⟨by omega, h⟩
            rw [lessAt_true_iff d _ _ (by omega) (by omega)] at hnl
            have e : first + (2 * root + 1) + 1 = first + (2 * root + 2) := by omega
            rw [e] at hnl
            omega
      obtain ⟨c1, hc1, hc1hi, hc1eq, hmax⟩ := hchild
      rw [hc1eq]
      have hrl : first + root < d.length := by omega
      have hcl : first + c1 < d.length := by omega
      by_cases hle : lessAt byOffsetX d (first + root) (first + c1) = false
      · rw [if_pos hle]
        refine ⟨framed_refl _ _ d, ?_⟩
        have hge := (lessAt_false_iff d _ _ hrl hcl).mp hle
        intro p c hp hc hch
        by_cases hpr : p = root
        · subst hpr
          have := hmax c hc hch
          omega
        · exact h1 p c hp hpr hc hch
      · rw [if_neg hle]
        have hlt : keyAt d (first + root) < keyAt d (first + c1) := by
          rw [lessAt_false_iff d _ _ hrl hcl] at hle
          omega
        have hk : ∀ k, k ≠ root → k ≠ c1 →
            keyAt (swapAt d (first + root) (first + c1)) (first + k) = keyAt d (first + k) :=
          fun k hk1 hk2 => keyAt_swapAt_other d _ _ _ hrl hcl (by omega) (by omega)
        have hkr : keyAt (swapAt d (first + root) (first + c1)) (first + root) =
            keyAt d (first + c1) := keyAt_swapAt_left d _ _ hrl hcl
        have hkc : keyAt (swapAt d (first + root) (first + c1)) (first + c1) =
            keyAt d (first + root) := keyAt_swapAt_right d _ _ hrl hcl
        have ih := siftDown_spec first lo hi fuel c1 (swapAt d (first + root) (first + c1))
          (by omega) (by omega) (by rw [swapAt_length]; exact hl) ?_ ?_
        · exact ⟨framed_trans
            (swapAt_framed (first + root) (first + hi) d _ _ (by omega) (by omega))
            (framed_mono ih.1 (by omega) (Nat.le_refl _)), ih.2⟩
        · intro p c hp hpc hc hch
          by_cases hpr : p = root
          · subst hpr
            rw [hkr]
            by_cases hcc : c = c1
            · rw [hcc, hkc]
              omega
            · rw [hk c (by omega) hcc]
              exact hmax c hc hch
          · rw [hk p hpr hpc]
            by_cases hcr : c = root
            · rw [hcr, hkr]
              exact h2 p c1 hp (by omega) hc1 hc1hi
            · rw [hk c hcr (by omega)]
              exact h1 p c hp hpr hc hch
        · intro q c hq hqc hc hch
          have hqr : q = root := by omega
          subst hqr
          rw [hkr, hk c (by omega) (by omega)]
          exact h1 c1 c (by omega) (by omega) hc hch

theorem heapBuild_spec (first hi : Nat) : ∀ (i : Nat) (d : List Monitor),
    first + hi ≤ d.length → HeapOn first (i + 1) hi d →
    Framed first (first + hi) d (heapBuild byOffsetX hi first i d) ∧
      HeapOn first 0 hi (heapBuild byOffsetX hi first i d)
  | 0, d, hl, hh => by
    unfold heapBuild
    have h := siftDown_spec first 0 hi hi 0 d (Nat.le_refl 0) (by omega) hl
      (fun p c _ hp hc hch => hh p c (by omega) hc hch) (fun q c _ hq _ _ => by omega)
    exact ⟨h.1, h.2⟩
  | i + 1, d, hl, hh => by
    unfold heapBuild
    have h := siftDown_spec first (i + 1) hi hi (i + 1) d (Nat.le_refl _) (by omega) hl
      (fun p c hp hpr hc hch => hh p c (by omega) hc hch) (fun q c hq hqr _ _ => by omega)
    have ih := heapBuild_spec first hi i (siftDown_func byOffsetX hi first hi (i + 1) d)
      (by rw [h.1.1]; exact hl) h.2
    exact ⟨framed_trans (framed_mono h.1 (by omega) (Nat.le_refl _)) ih.1, ih.2⟩

/-- The root of a heap holds its largest key. -/
theorem heap_root_max (first n : Nat) (d : List Monitor) (hh : HeapOn first 0 n d) :
    ∀ k, k < n → keyAt d (first + k) ≤ keyAt d (first + 0) := by
  intro k
  induction k using Nat.strong_induction_on with
  | _ k ih =>
    intro hk
    by_cases hk0 : k = 0
    · rw [hk0]
    · have h1 := hh ((k - 1) / 2) k (Nat.zero_le _) (by omega) hk
      have h2 := ih ((k - 1) / 2) (by omega) (by omega)
      omega

theorem heapPop_spec (first hi : Nat) : ∀ (n : Nat) (d : List Monitor),
    n ≤ hi → first + hi ≤ d.length → HeapOn first 0 n d →
    SortedOn (first + n) (first + hi) d →
    (∀ p q, p < n → n ≤ q → q < hi → keyAt d (first + p) ≤ keyAt d (first + q)) →
    Framed first (first + hi) d (heapPop byOffsetX first n d) ∧
      SortedOn first (first + hi) (heapPop byOffsetX first n d)
  | 0, d, _, _, _, hs, _ => by
    unfold heapPop
    exact ⟨framed_refl _ _ d, hs⟩
  | i + 1, d, hn, hl, hh, hs, hcross => by
    unfold heapPop
    have h0l : first < d.length := by omega
    have hil : first + i < d.length := by omega
    have hmax := heap_root_max first (i + 1) d hh
    have hk : ∀ k, k ≠ 0 → k ≠ i →
        keyAt (swapAt d first (first + i)) (first + k) = keyAt d (first + k) :=
      fun k hk1 hk2 => keyAt_swapAt_other d _ _ _ h0l hil (by omega) (by omega)
    have hk0 : keyAt (swapAt d first (first + i)) (first + 0) = keyAt d (first + i) :=
      keyAt_swapAt_left d _ _ h0l hil
    have hki : keyAt (swapAt d first (first + i)) (first + i) = keyAt d (first + 0) :=
      keyAt_swapAt_right d _ _ h0l hil
    have hl1 : first + i ≤ (swapAt d first (first + i)).length := by
      rw [swapAt_length]
      omega
    have hsift := siftDown_spec first 0 i i 0 (swapAt d first (first + i)) (Nat.le_refl 0)
      (by omega) hl1
      (fun p c _ hp hc hch => by
        rw [hk c (by omega) (by omega), hk p hp (by omega)]
        exact hh p c (Nat.zero_le _) hc (by omega))
      (fun q c _ hq _ _ => by omega)
    obtain ⟨hf, hheap⟩ := hsift
    rw [Nat.add_zero] at hf
    generalize hd2 : siftDown_func byOffsetX i first i 0 (swapAt d first (first + i)) = d2 at *
    have hout : ∀ k, i ≤ k → keyAt d2 (first + k) =
        keyAt (swapAt d first (first + i)) (first + k) :=
      fun k hk => framed_keyAt hf (first + k) (Or.inr (by omega))
    have hup : ∀ k, first ≤ k → k < first + i → keyAt d2 k ≤ keyAt d (first + 0) := by
      apply framed_upper hf
      intro k hk1 hk2
      have e : k = first + (k - first) := by omega
      by_cases hkf : k = first
      · rw [hkf]
        have := hk0
        rw [Nat.add_zero] at this
        rw [this]
        exact hmax i (by omega)
      · rw [e, hk (k - first) (by omega) (by omega)]
        exact hmax (k - first) (by omega)
    have ih := heapPop_spec first hi i d2 (by omega)
      (by rw [hf.1, swapAt_length]; exact hl) hheap ?_ ?_
    · refine ⟨framed_trans (swapAt_framed first (first + hi) d _ _ (by omega) (by omega))
        (framed_trans (framed_mono hf (Nat.le_refl _) (by omega)) ih.1), ih.2⟩
    · intro x y hx hxy hy
      have ex : x = first + (x - first) := by omega
      have ey : y = first + (y - first) := by omega
      rw [ex, ey, hout _ (by omega), hout _ (by omega)]
      by_cases hxi : x - first = i
      · by_cases hyi : y - first = i
        · rw [hxi, hyi]
        · rw [hxi, hki, hk (y - first) (by omega) hyi]
          exact hcross 0 (y - first) (by omega) (by omega) (by omega)
      · rw [hk (x - first) (by omega) hxi, hk (y - first) (by omega) (by omega)]
        rw [← ex, ← ey]
        exact hs x y (by omega) hxy hy
    · intro p q hp hq hqh
      have := hup (first + p) (by omega) (by omega)
      rw [hout q hq]
      by_cases hqi : q = i
      · rw [hqi, hki]
        exact this
      · rw [hk q (by omega) hqi]
        have := hcross 0 q (by omega) (by omega) hqh
        omega

theorem heapSort_spec (d : List Monitor) (a b : Nat) (hab : a ≤ b) (hb : b ≤ d.length) :
    Framed a b d (heapSort_func byOffsetX d a b) ∧
      SortedOn a b (heapSort_func byOffsetX d a b) := by
  unfold heapSort_func
  simp only []
  have e : a + (b - a) = b := by omega
  have h1 := heapBuild_spec a (b - a) ((b - a - 1) / 2) d (by omega)
    (fun p c hp hc hch => by omega)
  have h2 := heapPop_spec a (b - a) (b - a) (heapBuild byOffsetX (b - a) a ((b - a - 1) / 2) d)
    (Nat.le_refl _) (by rw [h1.1.1]; omega) h1.2 (fun i j h1 h2 h3 => by omega)
    (fun p q h1 h2 h3 => by omega)
  rw [e] at h1 h2
  exact ⟨framed_trans h1.1 h2.1, h2.2⟩

/-! ## `breakPatterns_func`, `reverseRange_func`, `choosePivot_func` -/

theorem bitsLenLoop_le : ∀ (fuel n : Nat), n ≤ fuel → 1 ≤ n →
    2 ^ bitsLenLoop fuel n ≤ 2 * n
  | 0, n, h1, h2 => by omega
  | fuel + 1, n, h1, h2 => by
    unfold bitsLenLoop
    rw [if_neg (by omega), Nat.pow_succ]
    by_cases h : n / 2 = 0
    · rw [h]
      have : bitsLenLoop fuel 0 = 0 := by
        cases fuel with
        | zero => rfl
        | succ f => simp [bitsLenLoop]
      rw [this]
      omega
    · have ih := bitsLenLoop_le fuel (n / 2) (by omega) (by omega)
      omega

theorem breakPatterns_spec (d : List Monitor) (a b : Nat) :
    Framed a b d (breakPatterns_func d a b) := by
  unfold breakPatterns_func
  simp only []
  by_cases h8 : b - a ≥ 8
  · rw [if_pos h8]
    have hmod : 2 ^ bitsLen (b - a) ≤ 2 * (b - a) :=
      bitsLenLoop_le (b - a) (b - a) (Nat.le_refl _) (by omega)
    have hpos : 0 < 2 ^ bitsLen (b - a) := Nat.two_pow_pos _
    have hother : ∀ r : Nat,
        (if r % 2 ^ bitsLen (b - a) ≥ b - a then r % 2 ^ bitsLen (b - a) - (b - a)
          else r % 2 ^ bitsLen (b - a)) < b - a := by
      intro r
      have := Nat.mod_lt r hpos
      split <;> omega
    have hstep : ∀ (r i : Nat) (d0 d1 : List Monitor), i ≤ 2 → Framed a b d0 d1 →
        Framed a b d0 (swapAt d1 (a + (b - a) / 4 * 2 - 1 + i)
          (a + (if r % 2 ^ bitsLen (b - a) ≥ b - a then r % 2 ^ bitsLen (b - a) - (b - a)
            else r % 2 ^ bitsLen (b - a)))) := by
      intro r i d0 d1 hi hf
      have := hother r
      exact framed_trans hf (swapAt_framed a b d1 _ _ (by omega) (by omega))
    exact hstep _ 2 _ _ (by omega) (hstep _ 1 _ _ (by omega)
      (hstep _ 0 _ _ (by omega) (framed_refl a b d)))
  · rw [if_neg h8]
    exact framed_refl a b d

/-- The three swaps of `breakPatterns_func` on a slice of 16 elements: positions 7,
8 and 9 are exchanged with positions 0, 8 and 7. -/
theorem breakPatterns_ramp :
    (breakPatterns_func ramp 0 16).map (fun m => m.offsetX) =
      [9, 1, 2, 3, 4, 5, 6, 0, 8, 7, 10, 11, 12, 13, 14, 15] := by
  decide

theorem reverseLoop_spec (a b : Nat) : ∀ (n i j : Nat) (d : List Monitor),
    a ≤ i → j < b → Framed a b d (reverseLoop n i j d)
  | 0, _, _, d, _, _ => by
    unfold reverseLoop
    exact framed_refl a b d
  | n + 1, i, j, d, hi, hj => by
    unfold reverseLoop
    by_cases h : i < j
    · rw [if_pos h]
      exact framed_trans (swapAt_framed a b d i j (by omega) (by omega))
        (reverseLoop_spec a b n (i + 1) (j - 1) _ (by omega) (by omega))
    · rw [if_neg h]
      exact framed_refl a b d

theorem reverseRange_spec (d : List Monitor) (a b : Nat) (hab : a < b) :
    Framed a b d (reverseRange_func d a b) := by
  unfold reverseRange_func
  exact reverseLoop_spec a b _ a (b - 1) d (Nat.le_refl a) (by omega)

theorem order2_cases (d : List Monitor) (x y s : Nat) :
    ((order2_func byOffsetX d x y s).1 = x ∧ (order2_func byOffsetX d x y s).2.1 = y) ∨
      ((order2_func byOffsetX d x y s).1 = y ∧ (order2_func byOffsetX d x y s).2.1 = x) := by
  unfold order2_func
  split
  · exact Or.inr ⟨rfl, rfl⟩
  · exact Or.inl ⟨rfl, rfl⟩

theorem median_mem (d : List Monitor) (x y z s : Nat) :
    (median_func byOffsetX d x y z s).1 = x ∨ (median_func byOffsetX d x y z s).1 = y ∨
      (median_func byOffsetX d x y z s).1 = z := by
  unfold median_func
  simp only []
  have h1 := order2_cases d x y s
  generalize order2_func byOffsetX d x y s = o1 at *
  have h2 := order2_cases d o1.2.1 z o1.2.2
  generalize order2_func byOffsetX d o1.2.1 z o1.2.2 = o2 at *
  have h3 := order2_cases d o1.1 o2.1 o2.2.2
  generalize order2_func byOffsetX d o1.1 o2.1 o2.2.2 = o3 at *
  omega

theorem medianAdjacent_mem (d : List Monitor) (x s : Nat) :
    (medianAdjacent_func byOffsetX d x s).1 = x - 1 ∨
      (medianAdjacent_func byOffsetX d x s).1 = x ∨
      (medianAdjacent_func byOffsetX d x s).1 = x + 1 := by
  unfold medianAdjacent_func
  exact median_mem d (x - 1) x (x + 1) s

theorem choosePivot_spec (d : List Monitor) (a b : Nat) (h8 : 8 ≤ b - a) :
    a ≤ (choosePivot_func byOffsetX d a b).1 ∧ (choosePivot_func byOffsetX d a b).1 < b := by
  unfold choosePivot_func
  simp only []
  rw [if_pos h8]
  by_cases h50 : b - a ≥ 50
  · rw [if_pos h50]
    have m1 := medianAdjacent_mem d (a + (b - a) / 4 * 1) 0
    generalize medianAdjacent_func byOffsetX d (a + (b - a) / 4 * 1) 0 = r1 at *
    have m2 := medianAdjacent_mem d (a + (b - a) / 4 * 2) r1.2
    generalize medianAdjacent_func byOffsetX d (a + (b - a) / 4 * 2) r1.2 = r2 at *
    have m3 := medianAdjacent_mem d (a + (b - a) / 4 * 3) r2.2
    generalize medianAdjacent_func byOffsetX d (a + (b - a) / 4 * 3) r2.2 = r3 at *
    have m4 := median_mem d r1.1 r2.1 r3.1 r3.2
    generalize median_func byOffsetX d r1.1 r2.1 r3.1 r3.2 = r4 at *
    split_ifs <;> simp only [] <;> omega
  · rw [if_neg h50]
    have m := median_mem d (a + (b - a) / 4 * 1) (a + (b - a) / 4 * 2)
      (a + (b - a) / 4 * 3) 0
    generalize median_func byOffsetX d (a + (b - a) / 4 * 1) (a + (b - a) / 4 * 2)
      (a + (b - a) / 4 * 3) 0 = r4 at *
    split_ifs <;> simp only [] <;> omega

/-! ## `partialInsertionSort_func` -/

theorem sortedOn_extend (a i i1 : Nat) (d : List Monitor) (hs : SortedOn a i d)
    (hadj : ∀ k, i ≤ k → k < i1 → keyAt d (k - 1) ≤ keyAt d k) : SortedOn a i1 d := by
  have key : ∀ y x, a ≤ x → x ≤ y → y < i1 → keyAt d x ≤ keyAt d y := by
    intro y
    induction y with
    | zero =>
      intro x _ hxy _
      have : x = 0 := by omega
      rw [this]
    | succ y ih =>
      intro x hax hxy hy
      by_cases hyi : y + 1 < i
      · exact hs x (y + 1) hax hxy hyi
      · by_cases hx : x = y + 1
        · rw [hx]
        · have h1 := ih x hax (by omega) (by omega)
          have h2 := hadj (y + 1) (by omega) hy
          rw [Nat.add_sub_cancel] at h2
          omega
  exact fun x y h1 h2 h3 => key y x h1 h2 h3

theorem sortedOn_outside {x y a b : Nat} {d1 d2 : List Monitor} (h : Framed x y d1 d2)
    (hs : SortedOn a b d1) (hout : b ≤ x ∨ y ≤ a) : SortedOn a b d2 := by
  intro i j h1 h2 h3
  rw [framed_keyAt h i (by omega), framed_keyAt h j (by omega)]
  exact hs i j h1 h2 h3

theorem skipOrdered_spec (d : List Monitor) : ∀ (n i : Nat), 1 ≤ i → i + n ≤ d.length →
    i ≤ skipOrdered byOffsetX d n i ∧ skipOrdered byOffsetX d n i ≤ i + n ∧
    (∀ k, i ≤ k → k < skipOrdered byOffsetX d n i → keyAt d (k - 1) ≤ keyAt d k) ∧
    (skipOrdered byOffsetX d n i < i + n →
      keyAt d (skipOrdered byOffsetX d n i) < keyAt d (skipOrdered byOffsetX d n i - 1))
  | 0, i, _, _ => by
    unfold skipOrdered
    exact ⟨Nat.le_refl i, Nat.le_refl _, fun k h1 h2 => by omega, fun h => by omega⟩
  | n + 1, i, hi, hl => by
    unfold skipOrdered
    by_cases hc : lessAt byOffsetX d i (i - 1) = false
    · rw [if_pos hc]
      obtain ⟨h1, h2, h3, h4⟩ := skipOrdered_spec d n (i + 1) (by omega) (by omega)
      refine ⟨by omega, by omega, ?_, fun h => h4 (by omega)⟩
      intro k hk1 hk2
      by_cases hki : k = i
      · rw [hki]
        exact (lessAt_false_iff d i (i - 1) (by omega) (by omega)).mp hc
      · exact h3 k (by omega) hk2
    · rw [if_neg hc]
      refine ⟨Nat.le_refl i, by omega, fun k h1 h2 => by omega, fun _ => ?_⟩
      rw [lessAt_false_iff d i (i - 1) (by omega) (by omega)] at hc
      omega

/-- Under a guard at `a` the left shift of `partialInsertionSort_func` stops at `a`,
like the inner loop of the insertion sort. -/
theorem shiftSmaller_eq (a : Nat) : ∀ (j : Nat) (d : List Monitor), a ≤ j → j < d.length →
    (a = 0 ∨ ∀ k, a ≤ k → k ≤ j → keyAt d (a - 1) ≤ keyAt d k) →
    shiftSmaller byOffsetX j d = insertionShift byOffsetX a j d
  | 0, d, _, _, _ => by
    unfold shiftSmaller insertionShift
    rfl
  | j + 1, d, haj, hl, hg => by
    unfold shiftSmaller insertionShift
    have hjl : j < d.length := by omega
    by_cases ha : a = j + 1
    · have hle : lessAt byOffsetX d (j + 1) j = false := by
        rw [lessAt_false_iff d (j + 1) j hl hjl]
        rcases hg with h0 | hg
        · omega
        · have := hg (j + 1) (by omega) (Nat.le_refl _)
          rw [ha, Nat.add_sub_cancel] at this
          exact this
      rw [if_pos hle, if_neg (by omega)]
    · by_cases hc : lessAt byOffsetX d (j + 1) j = true
      · have hcf : ¬ lessAt byOffsetX d (j + 1) j = false := by
          rw [hc]
          exact Bool.noConfusion
        rw [if_neg hcf, if_pos ⟨by omega, hc⟩]
        apply shiftSmaller_eq a j _ (by omega) (by rw [swapAt_length]; exact hjl)
        rcases hg with h0 | hg
        · exact Or.inl h0
        · by_cases h0 : a = 0
          · exact Or.inl h0
          right
          intro k hk1 hk2
          rw [keyAt_swapAt_other d (j + 1) j (a - 1) hl hjl (by omega) (by omega)]
          by_cases hkj : k = j
          · rw [hkj, keyAt_swapAt_right d (j + 1) j hl hjl]
            exact hg (j + 1) (by omega) (Nat.le_refl _)
          · rw [keyAt_swapAt_other d (j + 1) j k hl hjl (by omega) hkj]
            exact hg k hk1 (by omega)
      · have hcf : lessAt byOffsetX d (j + 1) j = false := by
          cases h : lessAt byOffsetX d (j + 1) j
          · rfl
          · exact absurd h hc
        rw [if_pos hcf, if_neg (fun h => hc h.2)]

theorem shiftGreater_spec (b : Nat) : ∀ (n j : Nat) (d : List Monitor), 1 ≤ j → j + n ≤ b →
    Framed (j - 1) b d (shiftGreater byOffsetX n j d)
  | 0, j, d, _, _ => by
    unfold shiftGreater
    exact framed_refl _ _ d
  | n + 1, j, d, hj, hb => by
    unfold shiftGreater
    by_cases hc : lessAt byOffsetX d j (j - 1) = false
    · rw [if_pos hc]
      exact framed_refl _ _ d
    · rw [if_neg hc]
      have ih := shiftGreater_spec b n (j + 1) (swapAt d j (j - 1)) (by omega) (by omega)
      rw [Nat.add_sub_cancel] at ih
      exact framed_trans (swapAt_framed (j - 1) b d j (j - 1) (by omega) (by omega))
        (framed_mono ih (by omega) (Nat.le_refl b))

theorem partialInsertionLoop_spec (a b : Nat) : ∀ (steps i : Nat) (d : List Monitor),
    a + 1 ≤ i → i ≤ b → b ≤ d.length → SortedOn a i d → Guard a b d →
    Framed a b d (partialInsertionLoop byOffsetX a b steps i d).1 ∧
      ((partialInsertionLoop byOffsetX a b steps i d).2 = true →
        SortedOn a b (partialInsertionLoop byOffsetX a b steps i d).1)
  | 0, i, d, _, _, _, _, _ => by
    unfold partialInsertionLoop
    exact ⟨framed_refl _ _ d, fun h => Bool.noConfusion h⟩
  | steps + 1, i, d, hai, hib, hbl, hs, hg => by
    obtain ⟨s1, s2, s3, s4⟩ := skipOrdered_spec d (b - i) i (by omega) (by omega)
    unfold partialInsertionLoop
    simp only []
    generalize skipOrdered byOffsetX d (b - i) i = i1 at *
    have hs1 : SortedOn a i1 d := sortedOn_extend a i i1 d hs s3
    by_cases hib1 : i1 = b
    · rw [if_pos hib1]
      refine ⟨framed_refl _ _ d, fun _ => ?_⟩
      rw [← hib1]
      exact hs1
    · rw [if_neg hib1]
      by_cases hshort : b - a < 50
      · rw [if_pos hshort]
        exact ⟨framed_refl _ _ d, fun h => Bool.noConfusion h⟩
      · rw [if_neg hshort]
        have hi1l : i1 < d.length := by omega
        have hi1l' : i1 - 1 < d.length := by omega
        -- the swap of the out-of-order pair
        have hf1 : Framed a b d (swapAt d i1 (i1 - 1)) :=
          swapAt_framed a b d i1 (i1 - 1) (by omega) (by omega)
        have hs2 : SortedOn a (i1 - 1) (swapAt d i1 (i1 - 1)) := by
          intro x y h1 h2 h3
          rw [keyAt_swapAt_other d _ _ x hi1l hi1l' (by omega) (by omega),
            keyAt_swapAt_other d _ _ y hi1l hi1l' (by omega) (by omega)]
          exact hs1 x y h1 h2 (by omega)
        have hg1 : Guard a b (swapAt d i1 (i1 - 1)) := guard_framed hf1 hg
        generalize swapAt d i1 (i1 - 1) = d1 at *
        -- the shift to the left
        have hleft : ∃ d2, (if i1 - a ≥ 2 then shiftSmaller byOffsetX (i1 - 1) d1 else d1) = d2 ∧
            Framed a b d1 d2 ∧ SortedOn a i1 d2 := by
          by_cases h2 : i1 - a ≥ 2
          · rw [if_pos h2]
            have hgd : a = 0 ∨ ∀ k, a ≤ k → k ≤ i1 - 1 → keyAt d1 (a - 1) ≤ keyAt d1 k := by
              rcases hg1 with h0 | hg1
              · exact Or.inl h0
              · exact Or.inr (fun k h1 h2 => hg1 k h1 (by omega))
            have hl1 : d1.length = d.length := hf1.1
            rw [shiftSmaller_eq a (i1 - 1) d1 (by omega) (by omega) hgd]
            have hsp := insertionShift_spec a (i1 - 1) (i1 - 1) d1 (by omega) (Nat.le_refl _)
              (by omega) hs2 (fun x y h1 h2 h3 => by omega) (fun p q _ _ h3 h4 => by omega)
              (fun q h1 h2 => by omega)
            rw [show i1 - 1 + 1 = i1 by omega] at hsp
            exact ⟨_, rfl, framed_mono hsp.1 (Nat.le_refl a) (by omega), hsp.2⟩
          · rw [if_neg h2]
            refine ⟨d1, rfl, framed_refl _ _ d1, ?_⟩
            intro x y h1 h2' h3
            have : x = y := by omega
            rw [this]
        obtain ⟨d2, hd2, hf2, hs3⟩ := hleft
        rw [hd2]
        -- the shift to the right
        have hright : ∃ d3,
            (if b - i1 ≥ 2 then shiftGreater byOffsetX (b - (i1 + 1)) (i1 + 1) d2 else d2) = d3 ∧
            Framed i1 b d2 d3 := by
          by_cases h2 : b - i1 ≥ 2
          · rw [if_pos h2]
            have := shiftGreater_spec b (b - (i1 + 1)) (i1 + 1) d2 (by omega) (by omega)
            rw [Nat.add_sub_cancel] at this
            exact ⟨_, rfl, this⟩
          · rw [if_neg h2]
            exact ⟨d2, rfl, framed_refl _ _ d2⟩
        obtain ⟨d3, hd3, hf3⟩ := hright
        rw [hd3]
        have hf13 : Framed a b d d3 :=
          framed_trans hf1 (framed_trans hf2 (framed_mono hf3 (by omega) (Nat.le_refl b)))
        have ih := partialInsertionLoop_spec a b steps i1 d3 (by omega) (by omega)
          (by rw [hf13.1]; exact hbl) (sortedOn_outside hf3 hs3 (Or.inl (Nat.le_refl _)))
          (guard_framed hf13 hg)
        exact ⟨framed_trans hf13 ih.1, ih.2⟩

theorem partialInsertionSort_spec (d : List Monitor) (a b : Nat) (hab : a < b)
    (hb : b ≤ d.length) (hg : Guard a b d) :
    Framed a b d (partialInsertionSort_func byOffsetX d a b).1 ∧
      ((partialInsertionSort_func byOffsetX d a b).2 = true →
        SortedOn a b (partialInsertionSort_func byOffsetX d a b).1) := by
  unfold partialInsertionSort_func
  exact partialInsertionLoop_spec a b 5 (a + 1) d (Nat.le_refl _) (by omega) hb
    (fun x y h1 h2 h3 => by
      have : x = y := by omega
      rw [this]) hg

/-! ## `pdqsort_func` and `sort.Slice` -/

theorem sortedOn_join (a mid b : Nat) (d : List Monitor) (hl : SortedOn a mid d)
    (hr : SortedOn (mid + 1) b d) (hlow : ∀ k, a ≤ k → k < mid → keyAt d k ≤ keyAt d mid)
    (hhigh : ∀ k, mid < k → k < b → keyAt d mid ≤ keyAt d k) : SortedOn a b d := by
  intro x y h1 h2 h3
  by_cases hy : y < mid
  · exact hl x y h1 h2 hy
  · by_cases hx : mid < x
    · exact hr x y (by omega) h2 h3
    · by_cases hxm : x = mid
      · by_cases hym : y = mid
        · rw [hxm, hym]
        · rw [hxm]
          exact hhigh y (by omega) h3
      · have hx1 := hlow x h1 (by omega)
        by_cases hym : y = mid
        · rw [hym]
          exact hx1
        · have := hhigh y (by omega) h3
          omega

/-- The function `pdqsort_func` sorts `data[a:b]` and leaves the rest of the slice
alone, when the element before `a` is not above any element of the range and the
fuel exceeds the length of the range. -/
theorem pdqsort_spec : ∀ (fuel : Nat) (d : List Monitor) (a b limit : Nat) (wb wp : Bool),
    a ≤ b → b ≤ d.length → b - a < fuel → Guard a b d →
    Framed a b d (pdqsort_func byOffsetX fuel d a b limit wb wp) ∧
      SortedOn a b (pdqsort_func byOffsetX fuel d a b limit wb wp)
  | 0, _, _, _, _, _, _, _, _, hf, _ => by omega
  | fuel + 1, d, a, b, limit, wb, wp, hab, hbl, hfuel, hg => by
    unfold pdqsort_func
    simp only []
    by_cases h12 : b - a ≤ 12
    · rw [if_pos h12]
      exact insertionSort_spec d a b hbl
    rw [if_neg h12]
    by_cases hlim : limit = 0
    · rw [if_pos hlim]
      exact heapSort_spec d a b hab hbl
    rw [if_neg hlim]
    -- breakPatterns
    have hf1 : Framed a b d (if wb = false then breakPatterns_func d a b else d) := by
      split
      · exact breakPatterns_spec d a b
      · exact framed_refl a b d
    generalize (if wb = false then breakPatterns_func d a b else d) = d1 at hf1 ⊢
    generalize (if wb = false then limit - 1 else limit) = limit1
    -- choosePivot
    have hp := choosePivot_spec d1 a b (by omega)
    generalize choosePivot_func byOffsetX d1 a b = ph at hp ⊢
    have hf2 : Framed a b d1
        (if ph.2 = SortedHint.decreasingHint then reverseRange_func d1 a b else d1) := by
      split
      · exact reverseRange_spec d1 a b (by omega)
      · exact framed_refl a b d1
    generalize (if ph.2 = SortedHint.decreasingHint then reverseRange_func d1 a b else d1) = d2
      at hf2 ⊢
    have hpiv : a ≤ (if ph.2 = SortedHint.decreasingHint then b - 1 - (ph.1 - a) else ph.1) ∧
        (if ph.2 = SortedHint.decreasingHint then b - 1 - (ph.1 - a) else ph.1) < b := by
      split <;> omega
    generalize (if ph.2 = SortedHint.decreasingHint then b - 1 - (ph.1 - a) else ph.1) = pivot
      at hpiv ⊢
    generalize (if ph.2 = SortedHint.decreasingHint then SortedHint.increasingHint else ph.2) =
      hint
    have hf12 : Framed a b d d2 := framed_trans hf1 hf2
    have hl2 : d2.length = d.length := hf12.1
    have hg2 : Guard a b d2 := guard_framed hf12 hg
    -- partialInsertionSort
    have htried : Framed a b d2
          (if wb = true ∧ wp = true ∧ hint = SortedHint.increasingHint then
            partialInsertionSort_func byOffsetX d2 a b else (d2, false)).1 ∧
        ((if wb = true ∧ wp = true ∧ hint = SortedHint.increasingHint then
            partialInsertionSort_func byOffsetX d2 a b else (d2, false)).2 = true →
          SortedOn a b
            (if wb = true ∧ wp = true ∧ hint = SortedHint.increasingHint then
              partialInsertionSort_func byOffsetX d2 a b else (d2, false)).1) := by
      split
      · exact partialInsertionSort_spec d2 a b (by omega) (by omega) hg2
      · exact ⟨framed_refl a b d2, fun h => Bool.noConfusion h⟩
    generalize (if wb = true ∧ wp = true ∧ hint = SortedHint.increasingHint then
      partialInsertionSort_func byOffsetX d2 a b else (d2, false)) = tried at htried ⊢
    obtain ⟨hf3, hsorted3⟩ := htried
    by_cases hdone : tried.2 = true
    · rw [if_pos hdone]
      exact ⟨framed_trans hf12 hf3, hsorted3 hdone⟩
    rw [if_neg hdone]
    have hf13 : Framed a b d tried.1 := framed_trans hf12 hf3
    have hl3 : tried.1.length = d.length := hf13.1
    have hg3 : Guard a b tried.1 := guard_framed hf13 hg
    generalize tried.1 = d3 at hf13 hl3 hg3 ⊢
    by_cases hpe : a > 0 ∧ lessAt byOffsetX d3 (a - 1) pivot = false
    · -- partitionEqual
      rw [if_pos hpe]
      have hPG : keyAt d3 pivot ≤ keyAt d3 (a - 1) :=
        (lessAt_false_iff d3 (a - 1) pivot (by omega) (by omega)).mp hpe.2
      have hG3 : ∀ k, a ≤ k → k < b → keyAt d3 (a - 1) ≤ keyAt d3 k := by
        rcases hg3 with h0 | h
        · omega
        · exact h
      obtain ⟨e1, e2, e3, e4, e5⟩ := partitionEqual_spec d3 a b pivot (by omega) hpiv.1 hpiv.2
      generalize partitionEqual_func byOffsetX d3 a b pivot = pe at e1 e2 e3 e4 e5 ⊢
      have hGpe : ∀ k, a ≤ k → k < b → keyAt d3 (a - 1) ≤ keyAt pe.1 k :=
        framed_lower e1 _ hG3
      have ih := pdqsort_spec fuel pe.1 pe.2 b limit1 wb wp e3 (by rw [e1.1]; omega) (by omega)
        (Or.inr (fun k h1 h2 => by
          have h3 := e4 (pe.2 - 1) (by omega) (by omega)
          have h4 := e5 k h1 h2
          omega))
      obtain ⟨i1, i2⟩ := ih
      generalize pdqsort_func byOffsetX fuel pe.1 pe.2 b limit1 wb wp = d4 at i1 i2 ⊢
      refine ⟨framed_trans hf13 (framed_trans e1 (framed_mono i1 (by omega) (Nat.le_refl b))), ?_⟩
      have hlow : ∀ k, a ≤ k → k < pe.2 → keyAt d4 k = keyAt d3 pivot := by
        intro k h1 h2
        rw [framed_keyAt i1 k (Or.inl h2)]
        have h3 := e4 k h1 h2
        have h4 := hGpe k h1 (by omega)
        omega
      have hhigh : ∀ k, pe.2 ≤ k → k < b → keyAt d3 pivot < keyAt d4 k :=
        framed_lower_strict i1 _ e5
      intro x y h1 h2 h3
      by_cases hy : y < pe.2
      · rw [hlow x h1 (by omega), hlow y (by omega) hy]
      · by_cases hx : x < pe.2
        · rw [hlow x h1 hx]
          exact le_of_lt (hhigh y (by omega) h3)
        · exact i2 x y (by omega) h2 h3
    · -- partition
      rw [if_neg hpe]
      obtain ⟨p1, p2, p3, p4, p5⟩ := partition_spec d3 a b pivot (by omega) hpiv.1 hpiv.2
      generalize partition_func byOffsetX d3 a b pivot = pt at p1 p2 p3 p4 p5 ⊢
      have hlpt : pt.1.length = d.length := by rw [p1.1, hl3]
      have hgpt : Guard a b pt.1 := guard_framed p1 hg3
      have hfpt : Framed a b d pt.1 := framed_trans hf13 p1
      by_cases hside : pt.2.1 - a < b - pt.2.1
      · rw [if_pos hside]
        -- left range first
        obtain ⟨l1, l2⟩ := pdqsort_spec fuel pt.1 a pt.2.1 limit1 true true p2 (by omega)
          (by omega) (guard_mono hgpt (by omega))
        generalize pdqsort_func byOffsetX fuel pt.1 a pt.2.1 limit1 true true = dL at l1 l2 ⊢
        have hmidL : keyAt dL pt.2.1 = keyAt pt.1 pt.2.1 :=
          framed_keyAt l1 _ (Or.inr (Nat.le_refl _))
        have hlowL : ∀ k, a ≤ k → k < pt.2.1 → keyAt dL k < keyAt pt.1 pt.2.1 :=
          framed_upper_strict l1 _ p4
        have hhighL : ∀ k, pt.2.1 < k → k < b → keyAt pt.1 pt.2.1 ≤ keyAt dL k := by
          intro k h1 h2
          rw [framed_keyAt l1 k (Or.inr (by omega))]
          exact p5 k h1 h2
        obtain ⟨r1, r2⟩ := pdqsort_spec fuel dL (pt.2.1 + 1) b limit1
          (decide (pt.2.1 - a ≥ (b - a) / 8)) pt.2.2 (by omega) (by rw [l1.1]; omega) (by omega)
          (Or.inr (fun k h1 h2 => by
            rw [Nat.add_sub_cancel, hmidL]
            exact hhighL k (by omega) h2))
        generalize pdqsort_func byOffsetX fuel dL (pt.2.1 + 1) b limit1
          (decide (pt.2.1 - a ≥ (b - a) / 8)) pt.2.2 = dR at r1 r2 ⊢
        refine ⟨framed_trans hfpt (framed_trans (framed_mono l1 (Nat.le_refl a) (by omega))
          (framed_mono r1 (by omega) (Nat.le_refl b))), ?_⟩
        have hmidR : keyAt dR pt.2.1 = keyAt pt.1 pt.2.1 := by
          rw [framed_keyAt r1 _ (Or.inl (by omega)), hmidL]
        apply sortedOn_join a pt.2.1 b dR
        · exact sortedOn_outside r1 l2 (Or.inl (by omega))
        · exact r2
        · intro k h1 h2
          rw [hmidR, framed_keyAt r1 k (Or.inl (by omega))]
          exact le_of_lt (hlowL k h1 h2)
        · intro k h1 h2
          rw [hmidR]
          exact framed_lower r1 _ (fun k h1 h2 => hhighL k (by omega) h2) k (by omega) h2
      · rw [if_neg hside]
        -- right range first
        obtain ⟨r1, r2⟩ := pdqsort_spec fuel pt.1 (pt.2.1 + 1) b limit1 true true (by omega)
          (by omega) (by omega)
          (Or.inr (fun k h1 h2 => by
            rw [Nat.add_sub_cancel]
            exact p5 k (by omega) h2))
        generalize pdqsort_func byOffsetX fuel pt.1 (pt.2.1 + 1) b limit1 true true = dR
          at r1 r2 ⊢
        have hmidR : keyAt dR pt.2.1 = keyAt pt.1 pt.2.1 :=
          framed_keyAt r1 _ (Or.inl (by omega))
        have hhighR : ∀ k, pt.2.1 < k → k < b → keyAt pt.1 pt.2.1 ≤ keyAt dR k := by
          intro k h1 h2
          exact framed_lower r1 _ (fun k h1 h2 => p5 k (by omega) h2) k (by omega) h2
        have hlowR : ∀ k, a ≤ k → k < pt.2.1 → keyAt dR k < keyAt pt.1 pt.2.1 := by
          intro k h1 h2
          rw [framed_keyAt r1 k (Or.inl (by omega))]
          exact p4 k h1 h2
        have hgR : Guard a pt.2.1 dR :=
          guard_mono (guard_framed (framed_mono r1 (by omega) (Nat.le_refl b)) hgpt) (by omega)
        obtain ⟨l1, l2⟩ := pdqsort_spec fuel dR a pt.2.1 limit1
          (decide (b - pt.2.1 ≥ (b - a) / 8)) pt.2.2 p2 (by rw [r1.1]; omega) (by omega) hgR
        generalize pdqsort_func byOffsetX fuel dR a pt.2.1 limit1
          (decide (b - pt.2.1 ≥ (b - a) / 8)) pt.2.2 = dL at l1 l2 ⊢
        refine ⟨framed_trans hfpt (framed_trans (framed_mono r1 (by omega) (Nat.le_refl b))
          (framed_mono l1 (Nat.le_refl a) (by omega))), ?_⟩
        have hmidL : keyAt dL pt.2.1 = keyAt pt.1 pt.2.1 := by
          rw [framed_keyAt l1 _ (Or.inr (Nat.le_refl _)), hmidR]
        apply sortedOn_join a pt.2.1 b dL
        · exact l2
        · exact sortedOn_outside l1 r2 (Or.inr (by omega))
        · intro k h1 h2
          rw [hmidL]
          exact le_of_lt (framed_upper_strict l1 _ hlowR k h1 h2)
        · intro k h1 h2
          rw [hmidL, framed_keyAt l1 k (Or.inr (by omega))]
          exact hhighR k h1 h2

theorem sortedOn_pairwise (d : List Monitor) (h : SortedOn 0 d.length d) :
    d.Pairwise (fun x y => x.offsetX ≤ y.offsetX) := by
  rw [List.pairwise_iff_getElem]
  intro i j hi hj hij
  have := h i j (Nat.zero_le i) (by omega) hj
  unfold keyAt at this
  rw [List.getElem?_eq_getElem hi, List.getElem?_eq_getElem hj] at this
  exact this

/-- The model of `sort.Slice` meets the contract of `sort.Slice`: its result is a
permutation of the slice, ordered by `offsetX`. -/
theorem sortSlice_contract : SortContract sortSlice byOffsetX := by
  intro data
  obtain ⟨hf, hs⟩ := pdqsort_spec (data.length + 1) data 0 data.length (bitsLen data.length)
    true true (Nat.zero_le _) (Nat.le_refl _) (by omega) (Or.inl rfl)
  refine ⟨hf.2.2, ?_⟩
  have hs' : SortedOn 0 (sortSlice data byOffsetX).length (sortSlice data byOffsetX) := by
    unfold sortSlice
    rw [hf.1]
    exact hs
  refine (sortedOn_pairwise _ hs').imp ?_
  intro x y hxy
  simp only [byOffsetX, decide_eq_false_iff_not]
  omega

/-- The contract of `sort.Slice` alone does not fix the order of ties: a sort that
meets it can return two monitors of equal `offsetX` in the reverse of their input
order. -/
theorem contract_allows_reordering :
    SortContract reversingSlice byOffsetX ∧
    reversingSlice [⟨1920, 1080, 0, 0⟩, ⟨1920, 1080, 0, 1080⟩] byOffsetX =
      [⟨1920, 1080, 0, 1080⟩, ⟨1920, 1080, 0, 0⟩] := by
  refine ⟨?_, by decide⟩
  intro data
  obtain ⟨hperm, hsorted⟩ := sortSlice_contract data.reverse
  exact ⟨hperm.trans (List.reverse_perm data), hsorted⟩

/-- A list ordered by `offsetX` is the monitors below `k`, then those at `k`, then
those above `k`. -/
theorem sorted_split (k : Int) : ∀ (l : List Monitor),
    l.Pairwise (fun a b => a.offsetX ≤ b.offsetX) →
    l = l.filter (fun m => decide (m.offsetX < k)) ++
      (l.filter (fun m => decide (m.offsetX = k)) ++ l.filter (fun m => decide (k < m.offsetX)))
  | [], _ => by simp
  | x :: t, h => by
    rw [List.pairwise_cons] at h
    obtain ⟨hx, ht⟩ := h
    have ih := sorted_split k t ht
    by_cases h1 : x.offsetX < k
    · have h2 : ¬ x.offsetX = k := by omega
      have h3 : ¬ k < x.offsetX := by omega
      rw [List.filter_cons_of_pos (by simpa using h1), List.filter_cons_of_neg (by simpa using h2),
        List.filter_cons_of_neg (by simpa using h3), List.cons_append]
      exact congrArg (List.cons x) ih
    · have hlow : t.filter (fun m => decide (m.offsetX < k)) = [] := by
        rw [List.filter_eq_nil_iff]
        intro m hm
        have := hx m hm
        simp only [decide_eq_true_eq]
        omega
      rw [hlow, List.nil_append] at ih
      by_cases h2 : x.offsetX = k
      · have h3 : ¬ k < x.offsetX := by omega
        rw [List.filter_cons_of_neg (by simpa using h1),
          List.filter_cons_of_pos (by simpa using h2),
          List.filter_cons_of_neg (by simpa using h3), hlow, List.nil_append, List.cons_append]
        exact congrArg (List.cons x) ih
      · have h3 : k < x.offsetX := by omega
        have hmid : t.filter (fun m => decide (m.offsetX = k)) = [] := by
          rw [List.filter_eq_nil_iff]
          intro m hm
          have := hx m hm
          simp only [decide_eq_true_eq]
          omega
        rw [hmid, List.nil_append] at ih
        rw [List.filter_cons_of_neg (by simpa using h1),
          List.filter_cons_of_neg (by simpa using h2),
          List.filter_cons_of_pos (by simpa using h3), hlow, hmid, List.nil_append,
          List.nil_append]
        exact congrArg (List.cons x) ih

/-! ## Monitor registry: the claims -/

/-- C8. Registry filter and order.  When `randr.Init` and the screen-resources
query succeed, `getMonitors` returns a permutation of the monitors of the surviving
outputs (connected, at least one CRTC, CRTC query answered, width and height
non-zero), one per surviving output and no other entry, with `offsetX`
non-decreasing along the result, and every returned monitor has positive width and
height. -/
theorem getMonitors_sorted_survivors (srv : XServer) (outputs : List Nat)
    (hinit : srv.randrInit = true) (hres : srv.screenResources = some outputs) :
    ∃ monitors, getMonitors srv = some monitors ∧
      monitors.Perm (outputs.filterMap (survivor srv)) ∧
      monitors.Pairwise (fun a b => a.offsetX ≤ b.offsetX) ∧
      ∀ m ∈ monitors, 0 < m.width ∧ 0 < m.height := by
  obtain ⟨hperm, hsorted⟩ := sortSlice_contract (outputs.filterMap (survivor srv))
  refine ⟨_, getMonitors_eq srv outputs hinit hres, hperm, ?_, ?_⟩
  · refine hsorted.imp ?_
    intro a b hab
    simp only [byOffsetX, decide_eq_false_iff_not] at hab
    omega
  · intro m hm
    obtain ⟨output, _, ho⟩ := List.mem_filterMap.mp (hperm.mem_iff.mp hm)
    exact survivor_pos srv output m ho

theorem getMonitors_sorted_survivors_witness :
    desk.randrInit = true ∧ desk.screenResources = some [7, 8, 9, 10] ∧
    getMonitors desk =
      some [⟨1920, 1080, 0, 0⟩, ⟨1920, 1080, 1920, 0⟩, ⟨1920, 1080, 1920, 1080⟩] ∧
    ∃ monitors, getMonitors desk = some monitors ∧
      monitors.Perm ([7, 8, 9, 10].filterMap (survivor desk)) ∧
      monitors.Pairwise (fun a b => a.offsetX ≤ b.offsetX) ∧
      ∀ m ∈ monitors, 0 < m.width ∧ 0 < m.height :=
  ⟨rfl, rfl, by decide, getMonitors_sorted_survivors desk [7, 8, 9, 10] rfl rfl⟩

/-- C9, as amended.  For every `offsetX` value `k`, the monitors at `k` form one
run of the result of `getMonitors`: the result is the monitors below `k`, then the
run, then the monitors above `k`, and the run holds exactly the discovered monitors
at `k`, each as often as discovered.  Nothing is said about the order inside the
run. -/
theorem ties_stay_together (srv : XServer) (outputs : List Nat)
    (hinit : srv.randrInit = true) (hres : srv.screenResources = some outputs) :
    ∃ monitors, getMonitors srv = some monitors ∧
      ∀ k : Int, ∃ pre run post, monitors = pre ++ (run ++ post) ∧
        (∀ m ∈ pre, m.offsetX < k) ∧ (∀ m ∈ run, m.offsetX = k) ∧
        (∀ m ∈ post, k < m.offsetX) ∧
        run.Perm ((outputs.filterMap (survivor srv)).filter (fun m => decide (m.offsetX = k))) := by
  obtain ⟨hperm, hsorted⟩ := sortSlice_contract (outputs.filterMap (survivor srv))
  refine ⟨_, getMonitors_eq srv outputs hinit hres, ?_⟩
  intro k
  have hs : (sortSlice (outputs.filterMap (survivor srv)) byOffsetX).Pairwise
      (fun a b => a.offsetX ≤ b.offsetX) := by
    refine hsorted.imp ?_
    intro a b hab
    simp only [byOffsetX, decide_eq_false_iff_not] at hab
    omega
  refine ⟨_, _, _, sorted_split k _ hs, ?_, ?_, ?_, hperm.filter _⟩
  · intro m hm
    simpa using (List.mem_filter.mp hm).2
  · intro m hm
    simpa using (List.mem_filter.mp hm).2
  · intro m hm
    simpa using (List.mem_filter.mp hm).2

theorem ties_stay_together_witness :
    stacked.randrInit = true ∧ stacked.screenResources = some (List.range 13) ∧
    ∃ monitors, getMonitors stacked = some monitors ∧
      ∀ k : Int, ∃ pre run post, monitors = pre ++ (run ++ post) ∧
        (∀ m ∈ pre, m.offsetX < k) ∧ (∀ m ∈ run, m.offsetX = k) ∧
        (∀ m ∈ post, k < m.offsetX) ∧
        run.Perm (((List.range 13).filterMap (survivor stacked)).filter
          (fun m => decide (m.offsetX = k))) :=
  ⟨rfl, rfl, ties_stay_together stacked (List.range 13) rfl rfl⟩

/-- C9 as stated fails on 13 monitors.  On `stacked` the outputs are discovered in
the order 0, 1, ..., 12; the twelve monitors at `offsetX = 1920` come out of
`getMonitors` in the order 6, 2, 3, 4, 5, 0, 7, 8, 9, 10, 11, 1 (read off their
`offsetY = 1080 * output`), so the monitors of outputs 0 and 6, which have the same
`offsetX`, are not in their order of discovery. -/
theorem tie_order_counterexample :
    stacked.screenResources = some (List.range 13) ∧
    ((List.range 13).filterMap (survivor stacked)).map (fun m => (m.offsetX, m.offsetY)) =
      [(1920, 0), (1920, 1080), (1920, 2160), (1920, 3240), (1920, 4320), (1920, 5400),
        (1920, 6480), (1920, 7560), (1920, 8640), (1920, 9720), (1920, 10800), (1920, 11880),
        (0, 0)] ∧
    (getMonitors stacked).map (List.map (fun m => (m.offsetX, m.offsetY))) =
      some [(0, 0), (1920, 6480), (1920, 2160), (1920, 3240), (1920, 4320), (1920, 5400),
        (1920, 0), (1920, 7560), (1920, 8640), (1920, 9720), (1920, 10800), (1920, 11880),
        (1920, 1080)] ∧
    (getMonitors stacked).map (List.filter (fun m => decide (m.offsetX = 1920))) ≠
      some (((List.range 13).filterMap (survivor stacked)).filter
        (fun m => decide (m.offsetX = 1920))) := by
  decide
end Winmove
